import Mathlib

/-
Verification of the graph validator/repairer in `omawari-random/kukan2.py`.

The Python program works on a station adjacency map `Dict[str, List[str]]`.
We embed it shallowly:
  * a Python dict (insertion ordered, unique keys) becomes an association
    list `AMap := List (String × List String)`; dict assignment replaces the
    value of an existing key in place and appends a fresh key at the end,
    exactly like CPython dicts;
  * possibly-raising dict subscripts become `Option`-valued lookups; a
    lookup on a missing key makes the whole function return `none`
    (modelling an uncaught `KeyError`);
  * the `json.dump` call inside `try/except` is replaced by an oracle
    parameter `saveResult : Option String` (`none` = the write succeeds,
    `some e` = the write raises an exception whose rendered text is `e`);
  * `verbose` only prints the already-assembled report in the source, so it
    does not influence the returned value.
-/

set_option autoImplicit false
set_option linter.unusedVariables false

/-- Adjacency maps: insertion-ordered string dictionaries. -/
abbrev AMap := List (String × List String)

/-- First-match lookup, the embedding of `conn[k]` / `conn.get(k)`. -/
def amGet : AMap → String → Option (List String)
  | [], _ => none
  | (k', v') :: rest, k => if k' = k then some v' else amGet rest k

/-- Dict assignment `conn[k] = v`: replace the value of an existing key in
place, or append a brand-new key at the end (CPython insertion order). -/
def amSet : AMap → String → List String → AMap
  | [], k, v => [(k, v)]
  | (k', v') :: rest, k, v =>
    if k' = k then (k, v) :: rest else (k', v') :: amSet rest k v

/-- The key view `list(conn.keys())`. -/
def amKeys (m : AMap) : List String := m.map Prod.fst

/-- Membership test `k in conn`. -/
def amContains (m : AMap) (k : String) : Bool := (amGet m k).isSome

/-- The duplicate-removal loop of the source (a `seen` set plus an output
list, preserving first occurrences), generalized over the element type. -/
def pydedupGo {α : Type} [DecidableEq α] (seen : List α) : List α → List α
  | [] => []
  | d :: rest => if d ∈ seen then pydedupGo seen rest else d :: pydedupGo (d :: seen) rest

/-- Order-preserving duplicate removal, as performed in phases 1 and 3. -/
def pydedup {α : Type} [DecidableEq α] (l : List α) : List α := pydedupGo [] l

/-- A single-quote character, used when rendering Python repr strings. -/
def sQuote : String := String.mk [Char.ofNat 39]

/-- Python `repr` of a string that contains no quote characters. -/
def pyQuote (s : String) : String := sQuote ++ s ++ sQuote

/-- Python `repr` of a list of strings (as interpolated by the f-strings of
the source). -/
def pyReprL (l : List String) : String :=
  "[" ++ String.intercalate ", " (l.map pyQuote) ++ "]"

/-- Report line: duplicate detected in a neighbour list. -/
def dupDetectLine (station : String) (dests : List String) : String :=
  "重複検出: " ++ pyQuote station ++ " の接続リストに重複がありました -> " ++ pyReprL dests

/-- Report line: duplicates removed (auto-fix). -/
def dupFixLine (station : String) (nd : List String) : String :=
  "  -> 重複を除去しました: " ++ pyQuote station ++ ": " ++ pyReprL nd

/-- Report line: self-connection detected. -/
def selfDetectLine (station : String) : String :=
  "自己接続検出: " ++ pyQuote station ++ " が自身を接続先に含んでいます."

/-- Report line: self-connection removed (auto-fix). -/
def selfFixLine (station : String) (nl : List String) : String :=
  "  -> 自己接続を削除しました: " ++ pyQuote station ++ ": " ++ pyReprL nl

/-- Report line: reference to an undefined station detected. -/
def undefDetectLine (start dst : String) : String :=
  "未定義駅参照: " ++ pyQuote start ++ " が " ++ pyQuote dst ++ " を参照していますが " ++
    pyQuote dst ++ " は定義されていません."

/-- Report line: undefined station created (auto-fix). -/
def undefFixLine (start dst : String) : String :=
  "  -> 新しい駅 " ++ pyQuote dst ++ " を作成し " ++ pyQuote start ++ " を追加しました."

/-- Report line: missing reciprocal link detected. -/
def recipDetectLine (start dst : String) : String :=
  "相互リンク欠落: " ++ pyQuote start ++ " -> " ++ pyQuote dst ++ " はあるが、" ++
    pyQuote dst ++ " に " ++ pyQuote start ++ " がありません."

/-- Report line: reciprocal link appended (auto-fix). -/
def recipFixLine (start dst : String) : String :=
  "  -> " ++ pyQuote dst ++ " に " ++ pyQuote start ++ " を追加しました."

/-- The single line produced when no defect was found. -/
def noIssuesLine : String := "検査完了: 問題は見つかりませんでした。"

/-- The summary line inserted at the front of a non-empty defect report. -/
def summaryLine (n : Nat) : String :=
  "検査結果: 問題 " ++ toString n ++ " 件を検出しました。"

/-- The line reporting a successful save of the repaired map. -/
def savedLine (p : String) : String :=
  "修正後データを " ++ pyQuote p ++ " に保存しました。"

/-- The line reporting a failed save (`e` is the rendered exception). -/
def saveErrLine (e : String) : String := "保存エラー: " ++ e

/-- Phase 1 of `validate_connections` (lines 56-75): per-node duplicate and
self-reference cleanup.  The loop runs over a snapshot `list(conn.items())`
of the freshly copied dict; `station, dests` are the snapshot pair while
`conn[station]` is read from the current dict. -/
def phase1Go (af : Bool) (conn : AMap) (rep : List String) :
    List (String × List String) → Option (AMap × List String)
  | [] => some (conn, rep)
  | (station, dests) :: rest =>
    let nd := pydedup dests
    let st1 : AMap × List String :=
      if nd.length ≠ dests.length then
        if af then (amSet conn station nd, rep ++ [dupDetectLine station dests, dupFixLine station nd])
        else (conn, rep ++ [dupDetectLine station dests])
      else (conn, rep)
    match amGet st1.1 station with
    | none => none
    | some cur =>
      if station ∈ cur then
        if af then
          let nl := cur.filter (fun x => x ≠ station)
          phase1Go af (amSet st1.1 station nl)
            (st1.2 ++ [selfDetectLine station, selfFixLine station nl]) rest
        else phase1Go af st1.1 (st1.2 ++ [selfDetectLine station]) rest
      else phase1Go af st1.1 st1.2 rest

/-- Phase 1 entry point: the snapshot is the whole (copied) map. -/
def phase1 (af : Bool) (conn : AMap) : Option (AMap × List String) :=
  phase1Go af conn [] conn

/-- The inner loop of phase 2 (lines 82-97), for a fixed `start`: `dst`
ranges over `list(dests)`, the snapshot of `conn[start]` taken when `start`
is visited. -/
def phase2Inner (af : Bool) (start : String) (conn : AMap) (rep : List String) :
    List String → Option (AMap × List String)
  | [] => some (conn, rep)
  | dst :: rest =>
    if dst = start then phase2Inner af start conn rep rest
    else if ¬ amContains conn dst then
      if af then
        phase2Inner af start (amSet conn dst [start])
          (rep ++ [undefDetectLine start dst, undefFixLine start dst]) rest
      else phase2Inner af start conn (rep ++ [undefDetectLine start dst]) rest
    else
      match amGet conn dst with
      | none => none
      | some dstL =>
        if start ∈ dstL then phase2Inner af start conn rep rest
        else if af then
          phase2Inner af start (amSet conn dst (dstL ++ [start]))
            (rep ++ [recipDetectLine start dst, recipFixLine start dst]) rest
        else phase2Inner af start conn (rep ++ [recipDetectLine start dst]) rest

/-- The outer loop of phase 2 (line 81).  The source iterates over the
snapshot `list(conn.items())` whose pairs hold live references to the value
lists; phase 2 never rebinds an existing key (it only appends in place and
creates brand-new keys), so the list seen when `start` is visited is exactly
the current `conn[start]`.  We therefore iterate over the snapshot of the
keys and fetch the current value at visit time. -/
def phase2Go (af : Bool) (conn : AMap) (rep : List String) :
    List String → Option (AMap × List String)
  | [] => some (conn, rep)
  | start :: rest =>
    match amGet conn start with
    | none => none
    | some dests =>
      match phase2Inner af start conn rep dests with
      | none => none
      | some (conn', rep') => phase2Go af conn' rep' rest

/-- Phase 2 entry point: reciprocity and existence checks over the snapshot
of the keys present after phase 1. -/
def phase2 (af : Bool) (conn : AMap) : Option (AMap × List String) :=
  phase2Go af conn [] (amKeys conn)

/-- Phase 3 (lines 99-107): re-deduplicate every list, iterating over a
snapshot `list(conn.keys())`. -/
def phase3Go (conn : AMap) : List String → Option AMap
  | [] => some conn
  | k :: rest =>
    match amGet conn k with
    | none => none
    | some v => phase3Go (amSet conn k (pydedup v)) rest

/-- Phase 3 entry point. -/
def phase3 (conn : AMap) : Option AMap := phase3Go conn (amKeys conn)

/-- Report assembly (lines 109-113): a single no-issue line, or a summary
line counting the accumulated lines prepended to them. -/
def assembleReport (rep : List String) : List String :=
  if rep = [] then [noIssuesLine] else summaryLine rep.length :: rep

/-- The save block (lines 115-122).  `save_to` must be truthy (present and
non-empty) and `auto_fix` set; the outcome of `json.dump` is the oracle
`saveResult`. -/
def saveLines (af : Bool) (save_to : Option String) (saveResult : Option String) :
    List String :=
  match save_to with
  | none => []
  | some p =>
    if af ∧ p ≠ "" then
      [match saveResult with
       | none => savedLine p
       | some e => saveErrLine e]
    else []

/-- The embedding of `validate_connections`.  The dict comprehension
`{k: list(v) for k, v in connections.items()}` copies the input; under the
value semantics of the embedding the copy is the map itself (the aliasing
content of that line is verified separately on the heap model below). -/
def validate_connections (connections : AMap) (auto_fix : Bool)
    (save_to : Option String) (saveResult : Option String) (verbose : Bool) :
    Option (AMap × List String) :=
  let conn := connections
  match phase1 auto_fix conn with
  | none => none
  | some (c1, r1) =>
    match phase2 auto_fix c1 with
    | none => none
    | some (c2, r2) =>
      match phase3 c2 with
      | none => none
      | some c3 =>
        some (c3, assembleReport (r1 ++ r2) ++ saveLines auto_fix save_to saveResult)

/-- Lexicographic code-point comparison of character lists, the order in
which Python compares strings. -/
def cpLE : List Char → List Char → Bool
  | [], _ => true
  | _ :: _, [] => false
  | c1 :: r1, c2 :: r2 =>
    if c1.toNat < c2.toNat then true
    else if c2.toNat < c1.toNat then false
    else cpLE r1 r2

/-- Python string comparison: lexicographic by code point. -/
def stringLE (a b : String) : Bool := cpLE a.data b.data

/-- The canonical undirected pair `tuple(sorted((a, b)))` of the edge
enumerator. -/
def canonPair (a b : String) : String × String :=
  if stringLE a b then (a, b) else (b, a)

/-- Inner loop of `print_all_sections` for a fixed node `a`: emit the
canonical pair of every neighbour `b ≠ a` not already in `printed`. -/
def sectionsInner (a : String) (printed : List (String × String)) :
    List String → List (String × String) × List (String × String)
  | [] => (printed, [])
  | b :: rest =>
    if a = b then sectionsInner a printed rest
    else
      let p := canonPair a b
      if p ∈ printed then sectionsInner a printed rest
      else
        let out := sectionsInner a (p :: printed) rest
        (out.1, p :: out.2)

/-- Outer loop of `print_all_sections`, threading the `printed_pairs` set. -/
def sectionsOuter (printed : List (String × String)) :
    List (String × List String) → List (String × String)
  | [] => []
  | (a, dests) :: rest =>
    let st := sectionsInner a printed dests
    st.2 ++ sectionsOuter st.1 rest

/-- The sequence of canonical edges emitted by `print_all_sections`
(lines 130-144), before string formatting. -/
def enumerateEdges (conn : AMap) : List (String × String) :=
  sectionsOuter [] conn

/-- The display string printed for one canonical edge. -/
def optionTag (p : String × String) : String :=
  "<option value=\"" ++ p.1 ++ " - " ++ p.2 ++ "\">" ++ p.1 ++ " - " ++ p.2 ++ "</option>"

/-- Modelled from the spec: the edge enumerator described in §4.2 — form
the canonical pair of every `(node, neighbour)` with `node ≠ neighbour`, in
map-then-list order, and keep the first occurrence of each pair. -/
def enumEdgesSpec (conn : AMap) : List (String × String) :=
  pydedup ((conn.map (fun kv => (kv.2.filter (fun b => b ≠ kv.1)).map (canonPair kv.1))).flatten)

/-! ### Properties of `pydedup` -/

theorem mem_pydedupGo {α : Type} [DecidableEq α] {seen l : List α} {x : α} :
    x ∈ pydedupGo seen l ↔ x ∈ l ∧ x ∉ seen := by
  induction l generalizing seen with
  | nil => simp [pydedupGo]
  | cons d rest ih =>
    by_cases hd : d ∈ seen
    · simp only [pydedupGo, if_pos hd, ih, List.mem_cons]
      constructor
      · rintro ⟨hx, hnx⟩; exact ⟨Or.inr hx, hnx⟩
      · rintro ⟨hx | hx, hnx⟩
        · exact absurd (hx ▸ hd) hnx
        · exact ⟨hx, hnx⟩
    · simp only [pydedupGo, if_neg hd, List.mem_cons, ih]
      constructor
      · rintro (rfl | ⟨hx, hnx⟩)
        · exact ⟨Or.inl rfl, hd⟩
        · exact ⟨Or.inr hx, fun hs => hnx (Or.inr hs)⟩
      · rintro ⟨rfl | hx, hnx⟩
        · exact Or.inl rfl
        · by_cases hxd : x = d
          · exact Or.inl hxd
          · refine Or.inr ⟨hx, ?_⟩
            rintro (h | h)
            · exact hxd h
            · exact hnx h

theorem pydedupGo_nodup {α : Type} [DecidableEq α] (seen l : List α) :
    (pydedupGo seen l).Nodup := by
  induction l generalizing seen with
  | nil => simp [pydedupGo]
  | cons d rest ih =>
    by_cases hd : d ∈ seen
    · simpa [pydedupGo, hd] using ih seen
    · rw [pydedupGo, if_neg hd]
      refine List.Nodup.cons ?_ (ih (d :: seen))
      intro hmem
      exact (mem_pydedupGo.1 hmem).2 (List.mem_cons_self d seen)

theorem mem_pydedup {α : Type} [DecidableEq α] {l : List α} {x : α} :
    x ∈ pydedup l ↔ x ∈ l := by
  simp [pydedup, mem_pydedupGo]

theorem pydedup_nodup {α : Type} [DecidableEq α] (l : List α) : (pydedup l).Nodup :=
  pydedupGo_nodup [] l

theorem pydedupGo_eq_self {α : Type} [DecidableEq α] {seen l : List α}
    (hn : l.Nodup) (hs : ∀ x ∈ l, x ∉ seen) : pydedupGo seen l = l := by
  induction l generalizing seen with
  | nil => rfl
  | cons d rest ih =>
    have hd : d ∉ seen := hs d (List.mem_cons_self d rest)
    rw [pydedupGo, if_neg hd]
    congr 1
    refine ih (List.Nodup.of_cons hn) ?_
    intro x hx
    intro hmem
    rcases List.mem_cons.1 hmem with h | h
    · exact (List.nodup_cons.1 hn).1 (h ▸ hx)
    · exact hs x (List.mem_cons_of_mem d hx) h

theorem pydedup_eq_self {α : Type} [DecidableEq α] {l : List α} (hn : l.Nodup) :
    pydedup l = l :=
  pydedupGo_eq_self hn (by simp)

theorem pydedupGo_length_le {α : Type} [DecidableEq α] (seen l : List α) :
    (pydedupGo seen l).length ≤ l.length := by
  induction l generalizing seen with
  | nil => simp [pydedupGo]
  | cons d rest ih =>
    by_cases hd : d ∈ seen
    · rw [pydedupGo, if_pos hd, List.length_cons]
      exact (ih seen).trans (Nat.le_succ _)
    · rw [pydedupGo, if_neg hd]
      simpa using ih (d :: seen)

theorem pydedupGo_of_length_eq {α : Type} [DecidableEq α] {seen l : List α}
    (h : (pydedupGo seen l).length = l.length) : pydedupGo seen l = l := by
  induction l generalizing seen with
  | nil => rfl
  | cons d rest ih =>
    by_cases hd : d ∈ seen
    · rw [pydedupGo, if_pos hd, List.length_cons] at h
      have := pydedupGo_length_le seen rest
      omega
    · rw [pydedupGo, if_neg hd] at h ⊢
      simp only [List.length_cons, Nat.succ.injEq] at h
      rw [ih h]

theorem pydedup_of_length_eq {α : Type} [DecidableEq α] {l : List α}
    (h : (pydedup l).length = l.length) : pydedup l = l :=
  pydedupGo_of_length_eq h

theorem pydedup_cons {α : Type} [DecidableEq α] (c : α) (t : List α) :
    pydedup (c :: t) = c :: pydedupGo [c] t := by
  simp [pydedup, pydedupGo]

/-! ### Properties of the dictionary operations -/

theorem amGet_set_self (m : AMap) (k : String) (v : List String) :
    amGet (amSet m k v) k = some v := by
  induction m with
  | nil => simp [amSet, amGet]
  | cons kv rest ih =>
    obtain ⟨a, b⟩ := kv
    by_cases h : a = k
    · simp [amSet, h, amGet]
    · simpa [amSet, h, amGet] using ih

theorem amGet_set_ne (m : AMap) (k k' : String) (v : List String) (h : k' ≠ k) :
    amGet (amSet m k v) k' = amGet m k' := by
  have hkk : ¬ (k = k') := fun e => h e.symm
  induction m with
  | nil => simp [amSet, amGet, hkk]
  | cons kv rest ih =>
    obtain ⟨a, b⟩ := kv
    by_cases hk : a = k
    · subst hk
      simp [amSet, amGet, hkk]
    · by_cases hk' : a = k'
      · simp [amSet, amGet, hk, hk', h]
      · simpa [amSet, amGet, hk, hk'] using ih

theorem amKeys_set_of_mem {m : AMap} {k : String} (v : List String) :
    k ∈ amKeys m → amKeys (amSet m k v) = amKeys m := by
  induction m with
  | nil => intro h; simp [amKeys] at h
  | cons kv rest ih =>
    intro h
    obtain ⟨a, b⟩ := kv
    by_cases hk : a = k
    · simp [amSet, hk, amKeys]
    · have h' : k ∈ amKeys rest := by
        rcases List.mem_cons.1 h with h | h
        · exact absurd h.symm hk
        · exact h
      simp only [amKeys, amSet, if_neg hk, List.map_cons]
      simpa [amKeys] using ih h'

theorem amKeys_set_of_not_mem {m : AMap} {k : String} (v : List String) :
    k ∉ amKeys m → amKeys (amSet m k v) = amKeys m ++ [k] := by
  induction m with
  | nil => intro _; simp [amSet, amKeys]
  | cons kv rest ih =>
    intro h
    obtain ⟨a, b⟩ := kv
    simp only [amKeys, List.map_cons, List.mem_cons, not_or] at h
    have hk : ¬ (a = k) := fun e => h.1 e.symm
    have h' : k ∉ amKeys rest := h.2
    simp only [amKeys, amSet, if_neg hk, List.map_cons, List.cons_append]
    simpa [amKeys] using ih h'

theorem amGet_some_mem_keys {m : AMap} {k : String} {v : List String}
    (h : amGet m k = some v) : k ∈ amKeys m := by
  induction m with
  | nil => simp [amGet] at h
  | cons kv rest ih =>
    obtain ⟨a, b⟩ := kv
    by_cases hk : a = k
    · simp [amKeys, hk]
    · rw [amGet, if_neg hk] at h
      exact List.mem_cons_of_mem _ (ih h)

theorem mem_keys_amGet {m : AMap} {k : String} :
    k ∈ amKeys m → ∃ v, amGet m k = some v := by
  induction m with
  | nil => intro h; simp [amKeys] at h
  | cons kv rest ih =>
    intro h
    obtain ⟨a, b⟩ := kv
    by_cases hk : a = k
    · exact ⟨b, by simp [amGet, hk]⟩
    · have h' : k ∈ amKeys rest := by
        rcases List.mem_cons.1 h with h | h
        · exact absurd h.symm hk
        · exact h
      simpa [amGet, hk] using ih h'

theorem amGet_isSome_iff {m : AMap} {k : String} :
    (amGet m k).isSome = true ↔ k ∈ amKeys m := by
  constructor
  · intro h
    obtain ⟨v, hv⟩ := Option.isSome_iff_exists.1 h
    exact amGet_some_mem_keys hv
  · intro h
    obtain ⟨v, hv⟩ := mem_keys_amGet h
    simp [hv]

theorem amContains_iff {m : AMap} {k : String} :
    amContains m k = true ↔ k ∈ amKeys m := by
  simp [amContains, amGet_isSome_iff]

theorem amGet_mem {m : AMap} {k : String} {v : List String}
    (h : amGet m k = some v) : (k, v) ∈ m := by
  induction m with
  | nil => simp [amGet] at h
  | cons kv rest ih =>
    obtain ⟨a, b⟩ := kv
    by_cases hk : a = k
    · rw [amGet, if_pos hk] at h
      subst hk
      obtain rfl : b = v := by simpa using h
      exact List.mem_cons_self _ _
    · rw [amGet, if_neg hk] at h
      exact List.mem_cons_of_mem _ (ih h)

theorem amGet_of_mem_nodup {m : AMap} {k : String} {v : List String}
    (hn : (amKeys m).Nodup) (h : (k, v) ∈ m) : amGet m k = some v := by
  induction m with
  | nil => simp at h
  | cons kv rest ih =>
    obtain ⟨a, b⟩ := kv
    rcases List.mem_cons.1 h with h | h
    · obtain ⟨rfl, rfl⟩ := Prod.mk.injEq k v a b ▸ h
      simp [amGet]
    · have hn' : (amKeys rest).Nodup := by
        simpa [amKeys] using (List.nodup_cons.1 (by simpa [amKeys] using hn)).2
      have hk : ¬ (a = k) := by
        intro e
        have : k ∈ amKeys rest := by
          have := List.mem_map_of_mem Prod.fst h
          simpa [amKeys] using this
        exact (List.nodup_cons.1 (by simpa [amKeys] using hn)).1 (e ▸ this)
      rw [amGet, if_neg hk]
      exact ih hn' h

theorem amSet_same {m : AMap} {k : String} {v : List String}
    (h : amGet m k = some v) : amSet m k v = m := by
  induction m with
  | nil => simp [amGet] at h
  | cons kv rest ih =>
    obtain ⟨a, b⟩ := kv
    by_cases hk : a = k
    · rw [amGet, if_pos hk] at h
      subst hk
      obtain rfl : b = v := by simpa using h
      simp [amSet]
    · rw [amGet, if_neg hk] at h
      simp [amSet, hk, ih h]

theorem amKeys_nodup_set {m : AMap} {k : String} (v : List String)
    (hn : (amKeys m).Nodup) : (amKeys (amSet m k v)).Nodup := by
  by_cases h : k ∈ amKeys m
  · rwa [amKeys_set_of_mem v h]
  · rw [amKeys_set_of_not_mem v h]
    simpa [List.nodup_append] using ⟨hn, fun hk => h hk⟩

/-! ### Phase 1 lemmas -/

theorem phase1Go_clean (af : Bool) (l : List (String × List String)) :
    ∀ (conn : AMap) (rep : List String),
    (∀ p ∈ l, (p.2 : List String).Nodup) →
    (∀ p ∈ l, ∃ cur, amGet conn p.1 = some cur ∧ p.1 ∉ cur) →
    phase1Go af conn rep l = some (conn, rep) := by
  induction l with
  | nil => intro conn rep _ _; rfl
  | cons hd rest ih =>
    intro conn rep hnd hself
    obtain ⟨s, d⟩ := hd
    obtain ⟨cur, hcur, hns⟩ := hself (s, d) (List.mem_cons_self _ _)
    have hdd : pydedup d = d := pydedup_eq_self (hnd (s, d) (List.mem_cons_self _ _))
    have hlen : ¬ ((pydedup d).length ≠ d.length) := by rw [hdd]; simp
    simp only [phase1Go, if_neg hlen, hcur, if_neg hns]
    exact ih conn rep (fun p hp => hnd p (List.mem_cons_of_mem _ hp))
      (fun p hp => hself p (List.mem_cons_of_mem _ hp))

theorem phase1Go_false (l : List (String × List String)) :
    ∀ (conn : AMap) (rep : List String),
    (∀ p ∈ l, (amGet conn p.1).isSome) →
    ∃ r, phase1Go false conn rep l = some (conn, rep ++ r) := by
  induction l with
  | nil => intro conn rep _; exact ⟨[], by simp [phase1Go]⟩
  | cons hd rest ih =>
    intro conn rep hsome
    obtain ⟨s, d⟩ := hd
    obtain ⟨cur, hcur⟩ := Option.isSome_iff_exists.1 (hsome (s, d) (List.mem_cons_self _ _))
    have hrest : ∀ p ∈ rest, (amGet conn p.1).isSome :=
      fun p hp => hsome p (List.mem_cons_of_mem _ hp)
    by_cases hlen : (pydedup d).length ≠ d.length
    · by_cases hs : s ∈ cur
      · obtain ⟨r, hr⟩ := ih conn (rep ++ [dupDetectLine s d] ++ [selfDetectLine s]) hrest
        refine ⟨[dupDetectLine s d] ++ [selfDetectLine s] ++ r, ?_⟩
        simp only [phase1Go, if_pos hlen, Bool.false_eq_true, if_false, hcur, if_pos hs]
        simpa [List.append_assoc] using hr
      · obtain ⟨r, hr⟩ := ih conn (rep ++ [dupDetectLine s d]) hrest
        refine ⟨[dupDetectLine s d] ++ r, ?_⟩
        simp only [phase1Go, if_pos hlen, Bool.false_eq_true, if_false, hcur, if_neg hs]
        simpa [List.append_assoc] using hr
    · by_cases hs : s ∈ cur
      · obtain ⟨r, hr⟩ := ih conn (rep ++ [selfDetectLine s]) hrest
        refine ⟨[selfDetectLine s] ++ r, ?_⟩
        simp only [phase1Go, if_neg hlen, Bool.false_eq_true, if_false, hcur, if_pos hs]
        simpa [List.append_assoc] using hr
      · obtain ⟨r, hr⟩ := ih conn rep hrest
        refine ⟨r, ?_⟩
        simp only [phase1Go, if_neg hlen, hcur, if_neg hs]
        exact hr

theorem phase1Go_cons_true (conn : AMap) (rep : List String) (s : String)
    (d : List String) (rest : List (String × List String))
    (hget : amGet conn s = some d) :
    ∃ conn' rep',
      phase1Go true conn rep ((s, d) :: rest) = phase1Go true conn' rep' rest ∧
      amKeys conn' = amKeys conn ∧
      (∀ k, k ≠ s → amGet conn' k = amGet conn k) ∧
      (∃ v1, amGet conn' s = some v1 ∧ v1.Nodup ∧ s ∉ v1 ∧
        (∀ x, x ∈ v1 ↔ (x ∈ d ∧ x ≠ s))) := by
  have hKeyS : s ∈ amKeys conn := amGet_some_mem_keys hget
  by_cases hlen : (pydedup d).length ≠ d.length
  · -- duplicates were found and removed
    have hgetM : amGet (amSet conn s (pydedup d)) s = some (pydedup d) :=
      amGet_set_self conn s (pydedup d)
    by_cases hs : s ∈ pydedup d
    · -- a self-loop is also present and gets filtered out
      refine ⟨amSet (amSet conn s (pydedup d)) s ((pydedup d).filter (fun x => x ≠ s)),
        rep ++ [dupDetectLine s d, dupFixLine s (pydedup d)] ++
          [selfDetectLine s, selfFixLine s ((pydedup d).filter (fun x => x ≠ s))], ?_, ?_, ?_, ?_⟩
      · simp [phase1Go, hlen, hgetM, hs]
      · rw [amKeys_set_of_mem _ (by rw [amKeys_set_of_mem _ hKeyS]; exact hKeyS),
          amKeys_set_of_mem _ hKeyS]
      · intro k hk
        rw [amGet_set_ne _ _ _ _ hk, amGet_set_ne _ _ _ _ hk]
      · refine ⟨(pydedup d).filter (fun x => x ≠ s), amGet_set_self _ _ _,
          List.Nodup.filter _ (pydedup_nodup d), ?_, ?_⟩
        · simp [List.mem_filter]
        · intro x
          simp [List.mem_filter, mem_pydedup, and_comm]
    · -- duplicates only
      refine ⟨amSet conn s (pydedup d),
        rep ++ [dupDetectLine s d, dupFixLine s (pydedup d)], ?_, ?_, ?_, ?_⟩
      · simp [phase1Go, hlen, hgetM, hs]
      · exact amKeys_set_of_mem _ hKeyS
      · intro k hk
        rw [amGet_set_ne _ _ _ _ hk]
      · refine ⟨pydedup d, hgetM, pydedup_nodup d, hs, ?_⟩
        intro x
        constructor
        · intro hx
          exact ⟨mem_pydedup.1 hx, fun e => hs (e ▸ hx)⟩
        · intro hx
          exact mem_pydedup.2 hx.1
  · -- no duplicates: the list is left in place
    have hdd : pydedup d = d := pydedup_of_length_eq (by push_neg at hlen; exact hlen)
    by_cases hs : s ∈ d
    · refine ⟨amSet conn s (d.filter (fun x => x ≠ s)),
        rep ++ [selfDetectLine s, selfFixLine s (d.filter (fun x => x ≠ s))], ?_, ?_, ?_, ?_⟩
      · simp [phase1Go, hdd, hlen, hget, hs]
      · exact amKeys_set_of_mem _ hKeyS
      · intro k hk
        rw [amGet_set_ne _ _ _ _ hk]
      · refine ⟨d.filter (fun x => x ≠ s), amGet_set_self _ _ _, ?_, ?_, ?_⟩
        · refine List.Nodup.filter _ ?_
          rw [← hdd]; exact pydedup_nodup d
        · simp [List.mem_filter]
        · intro x
          simp [List.mem_filter, and_comm]
    · refine ⟨conn, rep, ?_, rfl, fun _ _ => rfl, ?_⟩
      · simp [phase1Go, hdd, hlen, hget, hs]
      · refine ⟨d, hget, by rw [← hdd]; exact pydedup_nodup d, hs, ?_⟩
        intro x
        constructor
        · intro hx
          exact ⟨hx, fun e => hs (e ▸ hx)⟩
        · intro hx
          exact hx.1

theorem phase1Go_true_spec (l : List (String × List String)) :
    ∀ (conn : AMap) (rep : List String),
    (l.map Prod.fst).Nodup →
    (∀ p ∈ l, amGet conn p.1 = some p.2) →
    ∃ c1 r1, phase1Go true conn rep l = some (c1, r1) ∧
      amKeys c1 = amKeys conn ∧
      (∀ k, k ∉ l.map Prod.fst → amGet c1 k = amGet conn k) ∧
      (∀ p ∈ l, ∃ v1, amGet c1 p.1 = some v1 ∧ v1.Nodup ∧ p.1 ∉ v1 ∧
        (∀ x, x ∈ v1 ↔ (x ∈ p.2 ∧ x ≠ p.1))) := by
  induction l with
  | nil =>
    intro conn rep _ _
    exact ⟨conn, rep, rfl, rfl, fun _ _ => rfl, by simp⟩
  | cons hd rest ih =>
    intro conn rep hnodup hget
    obtain ⟨s, d⟩ := hd
    have hheadget : amGet conn s = some d := hget (s, d) (List.mem_cons_self _ _)
    have hn2 : (s :: rest.map Prod.fst).Nodup := by simpa using hnodup
    have hsrest : s ∉ rest.map Prod.fst := (List.nodup_cons.1 hn2).1
    obtain ⟨conn', rep', hstep, hkeys', hne', v1, hv1get, hv1nd, hv1self, hv1mem⟩ :=
      phase1Go_cons_true conn rep s d rest hheadget
    obtain ⟨c1, r1, hrec, hkeys1, huntouched, hitems⟩ :=
      ih conn' rep' (List.nodup_cons.1 hn2).2
        (by
          intro p hp
          have hps : p.1 ≠ s := by
            intro e
            exact hsrest (e ▸ List.mem_map_of_mem Prod.fst hp)
          rw [hne' p.1 hps]
          exact hget p (List.mem_cons_of_mem _ hp))
    refine ⟨c1, r1, by rw [hstep]; exact hrec, by rw [hkeys1, hkeys'], ?_, ?_⟩
    · intro k hk
      simp only [List.map_cons, List.mem_cons, not_or] at hk
      rw [huntouched k hk.2, hne' k hk.1]
    · intro p hp
      rcases List.mem_cons.1 hp with hp | hp
    
      · subst hp
        refine ⟨v1, ?_, hv1nd, hv1self, hv1mem⟩
        rw [huntouched s hsrest]
        exact hv1get
      · exact hitems p hp

/-! ### Phase 2: invariants -/

/-- Every stored neighbour list is duplicate-free. -/
def nodupVals (m : AMap) : Prop := ∀ k v, amGet m k = some v → v.Nodup

/-- No stored neighbour list mentions its own key. -/
def noSelf (m : AMap) : Prop := ∀ k v, amGet m k = some v → k ∉ v

/-- Reciprocity: every listed neighbour exists and lists the node back. -/
def recipOK (m : AMap) : Prop :=
  ∀ k v, amGet m k = some v → ∀ d ∈ v, ∃ w, amGet m d = some w ∧ k ∈ w

/-- During phase 2 the map only grows: every stored list is extended at the
end, and only by elements of the pre-phase-2 key snapshot `K`. -/
def growsTo (K : List String) (m m' : AMap) : Prop :=
  ∀ k v, amGet m k = some v → ∃ t, amGet m' k = some (v ++ t) ∧ ∀ x ∈ t, x ∈ K

theorem growsTo_refl (K : List String) (m : AMap) : growsTo K m m :=
  fun k v h => ⟨[], by simp [h], by simp⟩

theorem growsTo_trans {K : List String} {a b c : AMap}
    (h1 : growsTo K a b) (h2 : growsTo K b c) : growsTo K a c := by
  intro k v hv
  obtain ⟨t1, hb, ht1⟩ := h1 k v hv
  obtain ⟨t2, hc, ht2⟩ := h2 k (v ++ t1) hb
  refine ⟨t1 ++ t2, by simpa [List.append_assoc] using hc, ?_⟩
  intro x hx
  rcases List.mem_append.1 hx with hx | hx
  · exact ht1 x hx
  · exact ht2 x hx

theorem growsTo_mem {K : List String} {m m' : AMap} {k : String}
    {v : List String} {x : String} (hg : growsTo K m m')
    (hv : amGet m k = some v) (hx : x ∈ v) :
    ∃ v', amGet m' k = some v' ∧ x ∈ v' := by
  obtain ⟨t, hget, _⟩ := hg k v hv
  exact ⟨v ++ t, hget, List.mem_append_left t hx⟩

/-- The loop invariant of phase 2 (auto-fix on).  `K` is the snapshot of the
keys present when phase 2 starts, `done` the processed prefix of `K`. -/
structure P2Inv (K : List String) (done : List String) (conn : AMap) : Prop where
  keysNd : (amKeys conn).Nodup
  oldKeys : ∀ k ∈ K, ∃ v, amGet conn k = some v
  vNodup : nodupVals conn
  vNoSelf : noSelf conn
  doneK : ∀ k ∈ done, k ∈ K
  doneOK : ∀ k ∈ done, ∀ v, amGet conn k = some v → ∀ d ∈ v, d ≠ k →
    ∃ w, amGet conn d = some w ∧ k ∈ w
  newOK : ∀ k v, amGet conn k = some v → k ∉ K → ∀ d ∈ v,
    d ∈ K ∧ ∃ w, amGet conn d = some w ∧ k ∈ w

theorem P2Inv_create {K done : List String} {conn : AMap} {start dst : String}
    {full : List String}
    (inv : P2Inv K done conn) (hstartK : start ∈ K)
    (hfull : amGet conn start = some full) (hdstfull : dst ∈ full)
    (hne : dst ≠ start) (hnokey : dst ∉ amKeys conn) :
    P2Inv K done (amSet conn dst [start]) ∧
    growsTo K conn (amSet conn dst [start]) ∧
    amGet (amSet conn dst [start]) start = some full ∧
    (∃ w, amGet (amSet conn dst [start]) dst = some w ∧ start ∈ w) := by
  set conn2 := amSet conn dst [start] with hconn2
  have hsd : start ≠ dst := fun e => hne e.symm
  have hpres : ∀ k, k ≠ dst → amGet conn2 k = amGet conn k :=
    fun k hk => amGet_set_ne conn dst k [start] hk
  have hget2 : amGet conn2 dst = some [start] := amGet_set_self conn dst [start]
  have hfull2 : amGet conn2 start = some full := by rw [hpres start hsd]; exact hfull
  have hnotdst : ∀ {k : String} {v : List String}, amGet conn k = some v → k ≠ dst :=
    fun h e => hnokey (e ▸ amGet_some_mem_keys h)
  refine ⟨⟨?_, ?_, ?_, ?_, inv.doneK, ?_, ?_⟩, ?_, hfull2, ⟨[start], hget2, by simp⟩⟩
  · rw [hconn2]
    exact amKeys_nodup_set [start] inv.keysNd
  · intro k hk
    obtain ⟨v, hv⟩ := inv.oldKeys k hk
    exact ⟨v, by rw [hpres k (hnotdst hv)]; exact hv⟩
  · intro k v hv
    by_cases hk : k = dst
    · subst hk
      rw [hget2] at hv
      obtain rfl : [start] = v := by simpa using hv
      simp
    · rw [hpres k hk] at hv
      exact inv.vNodup k v hv
  · intro k v hv
    by_cases hk : k = dst
    · subst hk
      rw [hget2] at hv
      obtain rfl : [start] = v := by simpa using hv
      simpa using hsd.symm
    · rw [hpres k hk] at hv
      exact inv.vNoSelf k v hv
  · intro k hk v hv d hd hdk
    have hkK : k ∈ K := inv.doneK k hk
    obtain ⟨v0, hv0⟩ := inv.oldKeys k hkK
    have hkdst : k ≠ dst := hnotdst hv0
    rw [hpres k hkdst, hv0] at hv
    obtain rfl : v0 = v := by simpa using hv
    obtain ⟨w, hw, hmem⟩ := inv.doneOK k hk v0 hv0 d hd hdk
    exact ⟨w, by rw [hpres d (hnotdst hw)]; exact hw, hmem⟩
  · intro k v hv hkK d hd
    by_cases hk : k = dst
    · subst hk
      rw [hget2] at hv
      obtain rfl : [start] = v := by simpa using hv
      obtain rfl : d = start := by simpa using hd
      exact ⟨hstartK, full, hfull2, hdstfull⟩
    · rw [hpres k hk] at hv
      obtain ⟨hdK, w, hw, hmem⟩ := inv.newOK k v hv hkK d hd
      exact ⟨hdK, w, by rw [hpres d (hnotdst hw)]; exact hw, hmem⟩
  · intro k v hv
    refine ⟨[], ?_, by simp⟩
    rw [List.append_nil, hpres k (hnotdst hv)]
    exact hv

theorem P2Inv_append {K done : List String} {conn : AMap} {start dst : String}
    {full dstL : List String}
    (inv : P2Inv K done conn) (hstartK : start ∈ K)
    (hfull : amGet conn start = some full) (hdstfull : dst ∈ full)
    (hne : dst ≠ start) (hdstL : amGet conn dst = some dstL)
    (hnotin : start ∉ dstL) :
    P2Inv K done (amSet conn dst (dstL ++ [start])) ∧
    growsTo K conn (amSet conn dst (dstL ++ [start])) ∧
    amGet (amSet conn dst (dstL ++ [start])) start = some full ∧
    (∃ w, amGet (amSet conn dst (dstL ++ [start])) dst = some w ∧ start ∈ w) := by
  set v2 := dstL ++ [start] with hv2
  set conn2 := amSet conn dst v2 with hconn2
  have hsd : start ≠ dst := fun e => hne e.symm
  have hdstkey : dst ∈ amKeys conn := amGet_some_mem_keys hdstL
  have hpres : ∀ k, k ≠ dst → amGet conn2 k = amGet conn k :=
    fun k hk => amGet_set_ne conn dst k v2 hk
  have hget2 : amGet conn2 dst = some v2 := amGet_set_self conn dst v2
  have hfull2 : amGet conn2 start = some full := by rw [hpres start hsd]; exact hfull
  have hdstnself : dst ∉ dstL := inv.vNoSelf dst dstL hdstL
  refine ⟨⟨?_, ?_, ?_, ?_, inv.doneK, ?_, ?_⟩, ?_, hfull2,
    ⟨v2, hget2, by simp [hv2]⟩⟩
  · rw [hconn2, amKeys_set_of_mem v2 hdstkey] at *
    exact inv.keysNd
  · intro k hk
    obtain ⟨v, hv⟩ := inv.oldKeys k hk
    by_cases hkd : k = dst
    · exact ⟨v2, by rw [hkd]; exact hget2⟩
    · exact ⟨v, by rw [hpres k hkd]; exact hv⟩
  · intro k v hv
    by_cases hk : k = dst
    · subst hk
      rw [hget2] at hv
      obtain rfl : v2 = v := by simpa using hv
      have := inv.vNodup k dstL hdstL
      simp [hv2, List.nodup_append, this, hnotin]
    · rw [hpres k hk] at hv
      exact inv.vNodup k v hv
  · intro k v hv
    by_cases hk : k = dst
    · subst hk
      rw [hget2] at hv
      obtain rfl : v2 = v := by simpa using hv
      simp only [hv2, List.mem_append, List.mem_singleton, not_or]
      exact ⟨hdstnself, hsd.symm⟩
    · rw [hpres k hk] at hv
      exact inv.vNoSelf k v hv
  · intro k hk v hv d hd hdk
    by_cases hkd : k = dst
    · subst hkd
      rw [hget2] at hv
      obtain rfl : v2 = v := by simpa using hv
      rcases List.mem_append.1 hd with hd | hd
      · obtain ⟨w, hw, hmem⟩ := inv.doneOK k hk dstL hdstL d hd hdk
        exact ⟨w, by rw [hpres d (fun e => hdk (e.trans rfl))]; exact hw, hmem⟩
      · obtain rfl : d = start := by simpa using hd
        exact ⟨full, hfull2, hdstfull⟩
    · rw [hpres k hkd] at hv
      obtain ⟨w, hw, hmem⟩ := inv.doneOK k hk v hv d hd hdk
      by_cases hddst : d = dst
      · subst hddst
        rw [hdstL] at hw
        obtain rfl : dstL = w := by simpa using hw
        exact ⟨v2, hget2, by simp [hv2, hmem]⟩
      · exact ⟨w, by rw [hpres d hddst]; exact hw, hmem⟩
  · intro k v hv hkK d hd
    by_cases hk : k = dst
    · subst hk
      rw [hget2] at hv
      obtain rfl : v2 = v := by simpa using hv
      rcases List.mem_append.1 hd with hd | hd
      · obtain ⟨hdK, w, hw, hmem⟩ := inv.newOK k dstL hdstL hkK d hd
        have hddst : d ≠ k := fun e => hdstnself (e ▸ hd)
        exact ⟨hdK, w, by rw [hpres d hddst]; exact hw, hmem⟩
      · obtain rfl : d = start := by simpa using hd
        exact ⟨hstartK, full, hfull2, hdstfull⟩
    · rw [hpres k hk] at hv
      obtain ⟨hdK, w, hw, hmem⟩ := inv.newOK k v hv hkK d hd
      by_cases hddst : d = dst
      · subst hddst
        rw [hdstL] at hw
        obtain rfl : dstL = w := by simpa using hw
        exact ⟨hdK, v2, hget2, by simp [hv2, hmem]⟩
      · exact ⟨hdK, w, by rw [hpres d hddst]; exact hw, hmem⟩
  · intro k v hv
    by_cases hk : k = dst
    · subst hk
      rw [hdstL] at hv
      obtain rfl : dstL = v := by simpa using hv
      exact ⟨[start], hget2, by simpa using hstartK⟩
    · exact ⟨[], by rw [List.append_nil, hpres k hk]; exact hv, by simp⟩

theorem phase2Inner_spec {K done : List String} {start : String}
    (hstartK : start ∈ K) (rest : List String) :
    ∀ (conn : AMap) (rep : List String) (full : List String),
    P2Inv K done conn →
    amGet conn start = some full →
    (∀ d ∈ rest, d ∈ full) →
    ∃ conn' rep',
      phase2Inner true start conn rep rest = some (conn', rep ++ rep') ∧
      P2Inv K done conn' ∧
      growsTo K conn conn' ∧
      amGet conn' start = some full ∧
      (∀ d ∈ rest, d ≠ start → ∃ w, amGet conn' d = some w ∧ start ∈ w) := by
  induction rest with
  | nil =>
    intro conn rep full inv hfull hsub
    exact ⟨conn, [], by simp [phase2Inner], inv, growsTo_refl K conn, hfull, by simp⟩
  | cons dst rest ih =>
    intro conn rep full inv hfull hsub
    have hsubrest : ∀ d ∈ rest, d ∈ full :=
      fun d hd => hsub d (List.mem_cons_of_mem _ hd)
    have hdstfull : dst ∈ full := hsub dst (List.mem_cons_self _ _)
    by_cases hds : dst = start
    · obtain ⟨conn', rep', hrun, inv', hgrow, hfull', hrecip⟩ :=
        ih conn rep full inv hfull hsubrest
      refine ⟨conn', rep', ?_, inv', hgrow, hfull', ?_⟩
      · simpa [phase2Inner, hds] using hrun
      · intro d hd hdne
        rcases List.mem_cons.1 hd with rfl | hd
        · exact absurd hds hdne
        · exact hrecip d hd hdne
    · by_cases hck : amContains conn dst = true
      · obtain ⟨dstL, hdstL⟩ :=
          mem_keys_amGet (amContains_iff.1 hck)
        by_cases hmem : start ∈ dstL
        · obtain ⟨conn', rep', hrun, inv', hgrow, hfull', hrecip⟩ :=
            ih conn rep full inv hfull hsubrest
          refine ⟨conn', rep', ?_, inv', hgrow, hfull', ?_⟩
          · simpa [phase2Inner, hds, hck, hdstL, hmem] using hrun
          · intro d hd hdne
            rcases List.mem_cons.1 hd with rfl | hd
            · exact growsTo_mem hgrow hdstL hmem
            · exact hrecip d hd hdne
        · obtain ⟨inv2, hgrow2, hfull2, w0, hw0, hw0mem⟩ :=
            P2Inv_append inv hstartK hfull hdstfull hds hdstL hmem
          obtain ⟨conn', rep', hrun, inv', hgrow, hfull', hrecip⟩ :=
            ih (amSet conn dst (dstL ++ [start]))
              (rep ++ [recipDetectLine start dst, recipFixLine start dst]) full
              inv2 hfull2 hsubrest
          refine ⟨conn', [recipDetectLine start dst, recipFixLine start dst] ++ rep', ?_,
            inv', growsTo_trans hgrow2 hgrow, hfull', ?_⟩
          · rw [← List.append_assoc]
            simpa [phase2Inner, hds, hck, hdstL, hmem] using hrun
          · intro d hd hdne
            rcases List.mem_cons.1 hd with rfl | hd
            · obtain ⟨w', hw', hmem'⟩ := growsTo_mem hgrow hw0 hw0mem
              exact ⟨w', hw', hmem'⟩
            · exact hrecip d hd hdne
      · have hnokey : dst ∉ amKeys conn := fun h => hck (amContains_iff.2 h)
        obtain ⟨inv2, hgrow2, hfull2, w0, hw0, hw0mem⟩ :=
          P2Inv_create inv hstartK hfull hdstfull hds hnokey
        obtain ⟨conn', rep', hrun, inv', hgrow, hfull', hrecip⟩ :=
          ih (amSet conn dst [start])
            (rep ++ [undefDetectLine start dst, undefFixLine start dst]) full
            inv2 hfull2 hsubrest
        refine ⟨conn', [undefDetectLine start dst, undefFixLine start dst] ++ rep', ?_,
          inv', growsTo_trans hgrow2 hgrow, hfull', ?_⟩
        · rw [← List.append_assoc]
          simpa [phase2Inner, hds, hck, hnokey] using hrun
        · intro d hd hdne
          rcases List.mem_cons.1 hd with rfl | hd
          · obtain ⟨w', hw', hmem'⟩ := growsTo_mem hgrow hw0 hw0mem
            exact ⟨w', hw', hmem'⟩
          · exact hrecip d hd hdne

theorem phase2Go_spec (K : List String) (ks : List String) :
    ∀ (conn : AMap) (rep : List String) (done : List String),
    P2Inv K done conn →
    (∀ k ∈ ks, k ∈ K) →
    ∃ conn' rep' done',
      phase2Go true conn rep ks = some (conn', rep ++ rep') ∧
      P2Inv K done' conn' ∧
      growsTo K conn conn' ∧
      (∀ k, k ∈ done ∨ k ∈ ks → k ∈ done') := by
  induction ks with
  | nil =>
    intro conn rep done inv _
    refine ⟨conn, [], done, by simp [phase2Go], inv, growsTo_refl K conn, ?_⟩
    intro k hk
    rcases hk with hk | hk
    · exact hk
    · simp at hk
  | cons start ks ih =>
    intro conn rep done inv hks
    have hstartK : start ∈ K := hks start (List.mem_cons_self _ _)
    obtain ⟨dests, hdests⟩ := inv.oldKeys start hstartK
    obtain ⟨conn2, rep2, hrun2, inv2, hgrow2, hfull2, hrecip2⟩ :=
      phase2Inner_spec hstartK dests conn rep dests inv hdests (fun d hd => hd)
    have inv2' : P2Inv K (done ++ [start]) conn2 := by
      refine ⟨inv2.keysNd, inv2.oldKeys, inv2.vNodup, inv2.vNoSelf, ?_, ?_, inv2.newOK⟩
      · intro k hk
        rcases List.mem_append.1 hk with hk | hk
        · exact inv2.doneK k hk
        · obtain rfl : k = start := by simpa using hk
          exact hstartK
      · intro k hk v hv d hd hdk
        rcases List.mem_append.1 hk with hk | hk
        · exact inv2.doneOK k hk v hv d hd hdk
        · obtain rfl : k = start := by simpa using hk
          rw [hfull2] at hv
          obtain rfl : dests = v := by simpa using hv
          exact hrecip2 d hd hdk
    obtain ⟨conn', rep3, done', hrun3, inv', hgrow3, hcover⟩ :=
      ih conn2 (rep ++ rep2) (done ++ [start]) inv2'
        (fun k hk => hks k (List.mem_cons_of_mem _ hk))
    refine ⟨conn', rep2 ++ rep3, done', ?_, inv', growsTo_trans hgrow2 hgrow3, ?_⟩
    · rw [← List.append_assoc]
      simpa [phase2Go, hdests, hrun2] using hrun3
    · intro k hk
      rcases hk with hk | hk
      · exact hcover k (Or.inl (List.mem_append_left _ hk))
      · rcases List.mem_cons.1 hk with rfl | hk
        · exact hcover k (Or.inl (List.mem_append_right _ (List.mem_singleton_self _)))
        · exact hcover k (Or.inr hk)

theorem phase2_true_spec (conn : AMap)
    (hnd : (amKeys conn).Nodup) (hvn : nodupVals conn) (hns : noSelf conn) :
    ∃ c2 r2, phase2 true conn = some (c2, r2) ∧
      (amKeys c2).Nodup ∧ nodupVals c2 ∧ noSelf c2 ∧
      growsTo (amKeys conn) conn c2 ∧
      (∀ k v, amGet c2 k = some v → ∀ d ∈ v, ∃ w, amGet c2 d = some w ∧ k ∈ w) ∧
      (∀ k v, amGet c2 k = some v → k ∉ amKeys conn → ∀ d ∈ v,
        d ∈ amKeys conn ∧ ∃ w, amGet c2 d = some w ∧ k ∈ w) := by
  have inv0 : P2Inv (amKeys conn) [] conn := by
    refine ⟨hnd, fun k hk => mem_keys_amGet hk, hvn, hns, by simp, by simp, ?_⟩
    intro k v hv hk
    exact absurd (amGet_some_mem_keys hv) hk
  obtain ⟨c2, r2, done', hrun, inv', hgrow, hcover⟩ :=
    phase2Go_spec (amKeys conn) (amKeys conn) conn [] [] inv0 (fun k hk => hk)
  refine ⟨c2, r2, by simpa [phase2] using hrun, inv'.keysNd, inv'.vNodup, inv'.vNoSelf,
    hgrow, ?_, inv'.newOK⟩
  intro k v hv d hd
  have hdk : d ≠ k := fun e => inv'.vNoSelf k v hv (e ▸ hd)
  by_cases hk : k ∈ amKeys conn
  · exact inv'.doneOK k (hcover k (Or.inr hk)) v hv d hd hdk
  · obtain ⟨_, w, hw, hmem⟩ := inv'.newOK k v hv hk d hd
    exact ⟨w, hw, hmem⟩

theorem phase2Inner_noop (af : Bool) (start : String) (rest : List String) :
    ∀ (conn : AMap) (rep : List String),
    (∀ dst ∈ rest, dst ≠ start → ∃ w, amGet conn dst = some w ∧ start ∈ w) →
    phase2Inner af start conn rep rest = some (conn, rep) := by
  induction rest with
  | nil => intro conn rep _; rfl
  | cons dst rest ih =>
    intro conn rep hrecip
    by_cases hds : dst = start
    · simp only [phase2Inner, if_pos hds]
      exact ih conn rep (fun d hd => hrecip d (List.mem_cons_of_mem _ hd))
    · obtain ⟨w, hw, hmem⟩ := hrecip dst (List.mem_cons_self _ _) hds
      have hck : amContains conn dst = true := amContains_iff.2 (amGet_some_mem_keys hw)
      have hrest := ih conn rep (fun d hd => hrecip d (List.mem_cons_of_mem _ hd))
      simpa [phase2Inner, hds, hck, hw, hmem] using hrest

theorem phase2Go_noop (af : Bool) (ks : List String) :
    ∀ (conn : AMap) (rep : List String),
    (∀ k ∈ ks, ∃ v, amGet conn k = some v) →
    (∀ k v, amGet conn k = some v → ∀ d ∈ v, d ≠ k →
      ∃ w, amGet conn d = some w ∧ k ∈ w) →
    phase2Go af conn rep ks = some (conn, rep) := by
  induction ks with
  | nil => intro conn rep _ _; rfl
  | cons start ks ih =>
    intro conn rep hkeys hrecip
    obtain ⟨dests, hdests⟩ := hkeys start (List.mem_cons_self _ _)
    have hinner : phase2Inner af start conn rep dests = some (conn, rep) :=
      phase2Inner_noop af start dests conn rep
        (fun d hd hds => hrecip start dests hdests d hd hds)
    simp only [phase2Go, hdests, hinner]
    exact ih conn rep (fun k hk => hkeys k (List.mem_cons_of_mem _ hk)) hrecip

theorem phase2Inner_false (start : String) (rest : List String) :
    ∀ (conn : AMap) (rep : List String),
    ∃ r, phase2Inner false start conn rep rest = some (conn, rep ++ r) := by
  induction rest with
  | nil => intro conn rep; exact ⟨[], by simp [phase2Inner]⟩
  | cons dst rest ih =>
    intro conn rep
    by_cases hds : dst = start
    · obtain ⟨r, hr⟩ := ih conn rep
      exact ⟨r, by simpa [phase2Inner, hds] using hr⟩
    · by_cases hck : amContains conn dst = true
      · obtain ⟨dstL, hdstL⟩ := mem_keys_amGet (amContains_iff.1 hck)
        by_cases hmem : start ∈ dstL
        · obtain ⟨r, hr⟩ := ih conn rep
          exact ⟨r, by simpa [phase2Inner, hds, hck, hdstL, hmem] using hr⟩
        · obtain ⟨r, hr⟩ := ih conn (rep ++ [recipDetectLine start dst])
          refine ⟨[recipDetectLine start dst] ++ r, ?_⟩
          rw [← List.append_assoc]
          simpa [phase2Inner, hds, hck, hdstL, hmem] using hr
      · obtain ⟨r, hr⟩ := ih conn (rep ++ [undefDetectLine start dst])
        refine ⟨[undefDetectLine start dst] ++ r, ?_⟩
        rw [← List.append_assoc]
        simpa [phase2Inner, hds, hck] using hr

theorem phase2Go_false (ks : List String) :
    ∀ (conn : AMap) (rep : List String),
    (∀ k ∈ ks, ∃ v, amGet conn k = some v) →
    ∃ r, phase2Go false conn rep ks = some (conn, rep ++ r) := by
  induction ks with
  | nil => intro conn rep _; exact ⟨[], by simp [phase2Go]⟩
  | cons start ks ih =>
    intro conn rep hkeys
    obtain ⟨dests, hdests⟩ := hkeys start (List.mem_cons_self _ _)
    obtain ⟨r1, hr1⟩ := phase2Inner_false start dests conn rep
    obtain ⟨r2, hr2⟩ := ih conn (rep ++ r1)
      (fun k hk => hkeys k (List.mem_cons_of_mem _ hk))
    refine ⟨r1 ++ r2, ?_⟩
    rw [← List.append_assoc]
    simpa [phase2Go, hdests, hr1] using hr2

/-! ### Phase 3 lemmas -/

theorem phase3Go_spec (ks : List String) :
    ∀ (conn : AMap),
    (∀ k ∈ ks, (amGet conn k).isSome) → ks.Nodup →
    ∃ c3, phase3Go conn ks = some c3 ∧
      amKeys c3 = amKeys conn ∧
      (∀ k, k ∉ ks → amGet c3 k = amGet conn k) ∧
      (∀ k ∈ ks, amGet c3 k = (amGet conn k).map pydedup) := by
  induction ks with
  | nil =>
    intro conn _ _
    exact ⟨conn, rfl, rfl, fun _ _ => rfl, by simp⟩
  | cons k ks ih =>
    intro conn hsome hnd
    obtain ⟨v, hv⟩ :=
      Option.isSome_iff_exists.1 (hsome k (List.mem_cons_self _ _))
    have hkmem : k ∈ amKeys conn := amGet_some_mem_keys hv
    have hktail : k ∉ ks := (List.nodup_cons.1 hnd).1
    have hget2self : amGet (amSet conn k (pydedup v)) k = some (pydedup v) :=
      amGet_set_self conn k (pydedup v)
    have hget2ne : ∀ k', k' ≠ k → amGet (amSet conn k (pydedup v)) k' = amGet conn k' :=
      fun k' hk' => amGet_set_ne conn k k' (pydedup v) hk'
    obtain ⟨c3, hrun, hkeys, huntouched, hvals⟩ :=
      ih (amSet conn k (pydedup v))
        (by
          intro k' hk'
          have hne : k' ≠ k := fun e => hktail (e ▸ hk')
          rw [hget2ne k' hne]
          exact hsome k' (List.mem_cons_of_mem _ hk'))
        (List.nodup_cons.1 hnd).2
    refine ⟨c3, by simpa [phase3Go, hv] using hrun,
      by rw [hkeys, amKeys_set_of_mem _ hkmem], ?_, ?_⟩
    · intro k' hk'
      simp only [List.mem_cons, not_or] at hk'
      rw [huntouched k' hk'.2, hget2ne k' hk'.1]
    · intro k' hk'
      rcases List.mem_cons.1 hk' with rfl | hk'
      · rw [huntouched k' hktail, hget2self, hv]
        rfl
      · have hne : k' ≠ k := fun e => hktail (e ▸ hk')
        rw [hvals k' hk', hget2ne k' hne]

theorem phase3_spec (conn : AMap) (hnd : (amKeys conn).Nodup) :
    ∃ c3, phase3 conn = some c3 ∧ amKeys c3 = amKeys conn ∧
      (∀ k, amGet c3 k = (amGet conn k).map pydedup) := by
  obtain ⟨c3, hrun, hkeys, huntouched, hvals⟩ :=
    phase3Go_spec (amKeys conn) conn (fun k hk => amGet_isSome_iff.2 hk) hnd
  refine ⟨c3, hrun, hkeys, ?_⟩
  intro k
  by_cases hk : k ∈ amKeys conn
  · exact hvals k hk
  · rw [huntouched k hk]
    obtain hnone : amGet conn k = none := by
      cases h : amGet conn k with
      | none => rfl
      | some v => exact absurd (amGet_some_mem_keys h) hk
    rw [hnone]
    rfl

theorem phase3Go_id (ks : List String) :
    ∀ (conn : AMap),
    (∀ k ∈ ks, ∃ v, amGet conn k = some v ∧ v.Nodup) →
    phase3Go conn ks = some conn := by
  induction ks with
  | nil => intro conn _; rfl
  | cons k ks ih =>
    intro conn h
    obtain ⟨v, hv, hnd⟩ := h k (List.mem_cons_self _ _)
    have hset : amSet conn k (pydedup v) = conn := by
      rw [pydedup_eq_self hnd]
      exact amSet_same hv
    simp only [phase3Go, hv, hset]
    exact ih conn (fun k' hk' => h k' (List.mem_cons_of_mem _ hk'))

theorem phase3_id (conn : AMap) (hvals : ∀ k ∈ amKeys conn, ∃ v, amGet conn k = some v ∧ v.Nodup) :
    phase3 conn = some conn :=
  phase3Go_id (amKeys conn) conn hvals

/-! ### The composed auto-fix pipeline -/

/-- The facts established by one `auto_fix=True` run, relating the input to
the intermediate maps of the three phases and the returned map. -/
structure AutoFixFacts (conn c1 c2 m : AMap) : Prop where
  keys1 : amKeys c1 = amKeys conn
  items1 : ∀ p ∈ conn, ∃ v1, amGet c1 p.1 = some v1 ∧ v1.Nodup ∧ p.1 ∉ v1 ∧
    (∀ x, x ∈ v1 ↔ (x ∈ p.2 ∧ x ≠ p.1))
  keysNd2 : (amKeys c2).Nodup
  vals2 : nodupVals c2
  noSelf2 : noSelf c2
  grow2 : growsTo (amKeys conn) c1 c2
  recip2 : ∀ k v, amGet c2 k = some v → ∀ d ∈ v, ∃ w, amGet c2 d = some w ∧ k ∈ w
  new2 : ∀ k v, amGet c2 k = some v → k ∉ amKeys conn → ∀ d ∈ v,
    d ∈ amKeys conn ∧ ∃ w, amGet c2 d = some w ∧ k ∈ w
  keys3 : amKeys m = amKeys c2
  get3 : ∀ k, amGet m k = (amGet c2 k).map pydedup

theorem validate_true_run (conn : AMap) (sv sr : Option String) (vb : Bool)
    (hnd : (amKeys conn).Nodup) :
    ∃ c1 r1 c2 r2 m,
      phase1 true conn = some (c1, r1) ∧
      phase2 true c1 = some (c2, r2) ∧
      phase3 c2 = some m ∧
      validate_connections conn true sv sr vb =
        some (m, assembleReport (r1 ++ r2) ++ saveLines true sv sr) ∧
      AutoFixFacts conn c1 c2 m := by
  have hpairs : ∀ p ∈ conn, amGet conn p.1 = some p.2 := by
    intro p hp
    obtain ⟨a, b⟩ := p
    exact amGet_of_mem_nodup hnd hp
  obtain ⟨c1, r1, hrun1, hkeys1, huntouched1, hitems1⟩ :=
    phase1Go_true_spec conn conn [] hnd hpairs
  have hnd1 : (amKeys c1).Nodup := hkeys1 ▸ hnd
  have hval1 : ∀ k v, amGet c1 k = some v → v.Nodup ∧ k ∉ v := by
    intro k v hv
    have hk : k ∈ amKeys conn := by rw [← hkeys1]; exact amGet_some_mem_keys hv
    obtain ⟨v0, hv0⟩ := mem_keys_amGet hk
    obtain ⟨v1, hv1, hv1nd, hv1self, _⟩ := hitems1 (k, v0) (amGet_mem hv0)
    obtain rfl : v1 = v := by rw [hv1] at hv; simpa using hv
    exact ⟨hv1nd, hv1self⟩
  obtain ⟨c2, r2, hrun2, hnd2, hvals2, hnoself2, hgrow2, hrecip2, hnew2⟩ :=
    phase2_true_spec c1 hnd1 (fun k v hv => (hval1 k v hv).1)
      (fun k v hv => (hval1 k v hv).2)
  obtain ⟨m, hrun3, hkeys3, hget3⟩ := phase3_spec c2 hnd2
  refine ⟨c1, r1, c2, r2, m, hrun1, hrun2, hrun3, ?_, ?_⟩
  · simp only [validate_connections, phase1, hrun1, hrun2, hrun3]
  · exact ⟨hkeys1, hitems1, hnd2, hvals2, hnoself2, hkeys1 ▸ hgrow2, hrecip2,
      (by rw [hkeys1] at hnew2; exact hnew2), hkeys3, hget3⟩

theorem autofix_result_props {conn c1 c2 m : AMap} (fx : AutoFixFacts conn c1 c2 m) :
    (amKeys m).Nodup ∧ nodupVals m ∧ noSelf m ∧
    (∀ k v, amGet m k = some v → ∀ d ∈ v, ∃ w, amGet m d = some w ∧ k ∈ w) := by
  have hsplit : ∀ {k : String} {v : List String}, amGet m k = some v →
      ∃ v2, amGet c2 k = some v2 ∧ v = pydedup v2 := by
    intro k v hv
    rw [fx.get3 k] at hv
    cases h2 : amGet c2 k with
    | none => rw [h2] at hv; simp at hv
    | some v2 =>
      rw [h2] at hv
      exact ⟨v2, rfl, by simpa using hv.symm⟩
  refine ⟨fx.keys3 ▸ fx.keysNd2, ?_, ?_, ?_⟩
  · intro k v hv
    obtain ⟨v2, _, rfl⟩ := hsplit hv
    exact pydedup_nodup v2
  · intro k v hv
    obtain ⟨v2, h2, rfl⟩ := hsplit hv
    intro hk
    exact fx.noSelf2 k v2 h2 (mem_pydedup.1 hk)
  · intro k v hv d hd
    obtain ⟨v2, h2, rfl⟩ := hsplit hv
    obtain ⟨w, hw, hmem⟩ := fx.recip2 k v2 h2 d (mem_pydedup.1 hd)
    refine ⟨pydedup w, ?_, mem_pydedup.2 hmem⟩
    rw [fx.get3 d, hw]
    rfl

/-- C1: feeding the auto-fixed output back into `validate` with auto-fix on
(and no save path) reproduces exactly the same map together with the single
localized no-issue line: the fixed output is a fixed point. -/
theorem claim_C1_autofix_idempotent (conn : AMap) (sv sr : Option String)
    (vb vb2 : Bool) (m : AMap) (r : List String)
    (hnd : (amKeys conn).Nodup)
    (hrun : validate_connections conn true sv sr vb = some (m, r)) :
    validate_connections m true none none vb2 = some (m, [noIssuesLine]) := by
  obtain ⟨c1, r1, c2, r2, m', h1, h2, h3, hrun', fx⟩ :=
    validate_true_run conn sv sr vb hnd
  rw [hrun'] at hrun
  obtain ⟨rfl, _⟩ : m' = m ∧ assembleReport (r1 ++ r2) ++ saveLines true sv sr = r := by
    simpa using hrun
  obtain ⟨hknd, hvnd, hnself, hrecip⟩ := autofix_result_props fx
  have hpairfacts : ∀ p ∈ m', (p.2 : List String).Nodup ∧
      amGet m' p.1 = some p.2 := by
    intro p hp
    obtain ⟨a, b⟩ := p
    have hg : amGet m' a = some b := amGet_of_mem_nodup hknd hp
    exact ⟨hvnd a b hg, hg⟩
  have hp1 : phase1 true m' = some (m', []) := by
    refine phase1Go_clean true m' m' []
      (fun p hp => (hpairfacts p hp).1) ?_
    intro p hp
    exact ⟨p.2, (hpairfacts p hp).2, hnself p.1 p.2 (hpairfacts p hp).2⟩
  have hp2 : phase2 true m' = some (m', []) := by
    refine phase2Go_noop true (amKeys m') m' [] (fun k hk => mem_keys_amGet hk) ?_
    intro k v hv d hd hdk
    exact hrecip k v hv d hd
  have hp3 : phase3 m' = some m' := by
    refine phase3_id m' ?_
    intro k hk
    obtain ⟨v, hv⟩ := mem_keys_amGet hk
    exact ⟨v, hv, hvnd k v hv⟩
  have hp1' : phase1Go true m' [] m' = some (m', []) := hp1
  simp [validate_connections, phase1, hp1', hp2, hp3, assembleReport, saveLines]

/-- C2: with auto-fix on, the returned map is reciprocal — every neighbour
`b` of a node `a` is itself a key whose list contains `a`. -/
theorem claim_C2_reciprocity (conn : AMap) (sv sr : Option String) (vb : Bool)
    (m : AMap) (r : List String)
    (hnd : (amKeys conn).Nodup)
    (hrun : validate_connections conn true sv sr vb = some (m, r)) :
    ∀ a v, amGet m a = some v → ∀ b ∈ v, ∃ w, amGet m b = some w ∧ a ∈ w := by
  obtain ⟨c1, r1, c2, r2, m', h1, h2, h3, hrun', fx⟩ :=
    validate_true_run conn sv sr vb hnd
  rw [hrun'] at hrun
  obtain ⟨rfl, _⟩ : m' = m ∧ assembleReport (r1 ++ r2) ++ saveLines true sv sr = r := by
    simpa using hrun
  exact (autofix_result_props fx).2.2.2

theorem validate_false_run (conn : AMap) (sv sr : Option String) (vb : Bool)
    (hnd : (amKeys conn).Nodup) :
    ∃ r1 r2 m,
      phase1 false conn = some (conn, r1) ∧
      phase2 false conn = some (conn, r2) ∧
      phase3 conn = some m ∧
      validate_connections conn false sv sr vb =
        some (m, assembleReport (r1 ++ r2) ++ saveLines false sv sr) ∧
      amKeys m = amKeys conn ∧ (∀ k, amGet m k = (amGet conn k).map pydedup) := by
  obtain ⟨r1, hrun1⟩ := phase1Go_false conn conn []
    (fun p hp => amGet_isSome_iff.2 (List.mem_map_of_mem Prod.fst hp))
  rw [List.nil_append] at hrun1
  obtain ⟨r2, hrun2⟩ := phase2Go_false (amKeys conn) conn []
    (fun k hk => mem_keys_amGet hk)
  rw [List.nil_append] at hrun2
  obtain ⟨m, hrun3, hkeys3, hget3⟩ := phase3_spec conn hnd
  refine ⟨r1, r2, m, hrun1, hrun2, hrun3, ?_, hkeys3, hget3⟩
  simp only [validate_connections, phase1, phase2, hrun1, hrun2, hrun3]

/-- C3: under either value of auto-fix, every neighbour list of the
returned map is duplicate-free (phase 3 re-deduplicates regardless). -/
theorem claim_C3_no_duplicates (conn : AMap) (af : Bool) (sv sr : Option String)
    (vb : Bool) (m : AMap) (r : List String)
    (hnd : (amKeys conn).Nodup)
    (hrun : validate_connections conn af sv sr vb = some (m, r)) :
    ∀ k v, amGet m k = some v → v.Nodup := by
  cases af with
  | true =>
    obtain ⟨c1, r1, c2, r2, m', h1, h2, h3, hrun', fx⟩ :=
      validate_true_run conn sv sr vb hnd
    rw [hrun'] at hrun
    obtain ⟨rfl, _⟩ : m' = m ∧ _ = r := by simpa using hrun
    exact (autofix_result_props fx).2.1
  | false =>
    obtain ⟨r1, r2, m', h1, h2, h3, hrun', hkeys, hget⟩ :=
      validate_false_run conn sv sr vb hnd
    rw [hrun'] at hrun
    obtain ⟨rfl, _⟩ : m' = m ∧ _ = r := by simpa using hrun
    intro k v hv
    rw [hget k] at hv
    cases h : amGet conn k with
    | none => rw [h] at hv; simp at hv
    | some v0 =>
      rw [h] at hv
      obtain rfl : pydedup v0 = v := by simpa using hv
      exact pydedup_nodup v0

theorem assembleReport_ne_nil (rep : List String) : assembleReport rep ≠ [] := by
  rw [assembleReport]
  split <;> simp

/-- C4: `validate` is total — on every input map and every flag
combination it returns a map together with a non-empty report. -/
theorem claim_C4_total (conn : AMap) (af : Bool) (sv sr : Option String)
    (vb : Bool) (hnd : (amKeys conn).Nodup) :
    ∃ m r, validate_connections conn af sv sr vb = some (m, r) ∧ r ≠ [] := by
  have happ : ∀ (a b : List String), a ≠ [] → a ++ b ≠ [] := by
    intro a b ha h
    cases a with
    | nil => exact ha rfl
    | cons x xs => simp at h
  cases af with
  | true =>
    obtain ⟨c1, r1, c2, r2, m, h1, h2, h3, hrun, fx⟩ :=
      validate_true_run conn sv sr vb hnd
    exact ⟨m, _, hrun, happ _ _ (assembleReport_ne_nil (r1 ++ r2))⟩
  | false =>
    obtain ⟨r1, r2, m, h1, h2, h3, hrun, _, _⟩ :=
      validate_false_run conn sv sr vb hnd
    exact ⟨m, _, hrun, happ _ _ (assembleReport_ne_nil (r1 ++ r2))⟩

/-- C10: with auto-fix off the returned map has exactly the input keys and
each list is the input list with duplicates removed (first occurrences
kept); in particular self-loops and missing reciprocal links remain. -/
theorem claim_C10_nofix_dedup_only (conn : AMap) (sv sr : Option String)
    (vb : Bool) (hnd : (amKeys conn).Nodup) :
    ∃ m r, validate_connections conn false sv sr vb = some (m, r) ∧
      amKeys m = amKeys conn ∧
      (∀ k, amGet m k = (amGet conn k).map pydedup) := by
  obtain ⟨r1, r2, m, h1, h2, h3, hrun, hkeys, hget⟩ :=
    validate_false_run conn sv sr vb hnd
  exact ⟨m, _, hrun, hkeys, hget⟩

/-- C5: whenever defects are detected (the phase reports are non-empty) the
returned report is the summary line carrying the number of defect lines,
then those lines in detection order, with the save line (if any) last. -/
theorem claim_C5_report_shape (conn : AMap) (af : Bool) (sv sr : Option String)
    (vb : Bool) (c1 : AMap) (r1 : List String) (c2 : AMap) (r2 : List String)
    (m : AMap) (r : List String)
    (h1 : phase1 af conn = some (c1, r1))
    (h2 : phase2 af c1 = some (c2, r2))
    (hne : r1 ++ r2 ≠ [])
    (hrun : validate_connections conn af sv sr vb = some (m, r)) :
    r = summaryLine (r1 ++ r2).length :: ((r1 ++ r2) ++ saveLines af sv sr) := by
  cases h3 : phase3 c2 with
  | none => simp [validate_connections, h1, h2, h3] at hrun
  | some c3 =>
    simp only [validate_connections, h1, h2, h3] at hrun
    obtain ⟨_, hrep⟩ : c3 = m ∧ assembleReport (r1 ++ r2) ++ saveLines af sv sr = r := by
      simpa using hrun
    rw [← hrep, assembleReport, if_neg hne, List.cons_append]

/-- C9: a failing save is caught and reported: with the same inputs the
erroring run returns the same map and the same report except that the final
save-confirmation line is replaced by the save-error line. -/
theorem claim_C9_save_error_reported (conn : AMap) (p e : String) (vb : Bool)
    (m : AMap) (r : List String)
    (hp : p ≠ "")
    (hok : validate_connections conn true (some p) none vb = some (m, r)) :
    validate_connections conn true (some p) (some e) vb =
      some (m, r.dropLast ++ [saveErrLine e]) ∧
    r.getLast? = some (savedLine p) := by
  cases h1 : phase1 true conn with
  | none => simp [validate_connections, h1] at hok
  | some pr1 =>
    obtain ⟨c1, r1⟩ := pr1
    cases h2 : phase2 true c1 with
    | none => simp [validate_connections, h1, h2] at hok
    | some pr2 =>
      obtain ⟨c2, r2⟩ := pr2
      cases h3 : phase3 c2 with
      | none => simp [validate_connections, h1, h2, h3] at hok
      | some c3 =>
        have hsaveok : saveLines true (some p) none = [savedLine p] := by
          simp [saveLines, hp]
        have hsaveerr : saveLines true (some p) (some e) = [saveErrLine e] := by
          simp [saveLines, hp]
        simp only [validate_connections, h1, h2, h3, hsaveok] at hok
        obtain ⟨rfl, hrep⟩ : c3 = m ∧ assembleReport (r1 ++ r2) ++ [savedLine p] = r := by
          simpa using hok
        constructor
        · simp only [validate_connections, h1, h2, h3, hsaveerr]
          rw [← hrep, List.dropLast_concat]
        · rw [← hrep]
          exact List.getLast?_concat _

/-- C6 (amended): a node auto-created for a dangling reference ends up with
the set of all pre-existing nodes that referenced the dangling name as its
neighbours — not merely the single triggering referrer — and it is present
in the returned map whenever at least one such referrer exists. -/
theorem claim_C6_created_node_neighbours (conn : AMap) (sv sr : Option String)
    (vb : Bool) (d : String) (m : AMap) (r : List String)
    (hnd : (amKeys conn).Nodup)
    (hd : d ∉ amKeys conn)
    (hrun : validate_connections conn true sv sr vb = some (m, r)) :
    (∀ l, amGet m d = some l →
      ∀ p, (p ∈ l ↔ ∃ v0, amGet conn p = some v0 ∧ d ∈ v0)) ∧
    ((∃ p v0, amGet conn p = some v0 ∧ d ∈ v0) → (amGet m d).isSome) := by
  obtain ⟨c1, r1, c2, r2, m', h1, h2, h3, hrun', fx⟩ :=
    validate_true_run conn sv sr vb hnd
  rw [hrun'] at hrun
  obtain ⟨rfl, _⟩ : m' = m ∧ _ = r := by simpa using hrun
  have backward : ∀ p v0, amGet conn p = some v0 → d ∈ v0 →
      ∃ w, amGet c2 d = some w ∧ p ∈ w := by
    intro p v0 hv0 hdv0
    have hpK : p ∈ amKeys conn := amGet_some_mem_keys hv0
    have hdp : d ≠ p := fun e => hd (e ▸ hpK)
    obtain ⟨v1, hv1, _, _, hiff⟩ := fx.items1 (p, v0) (amGet_mem hv0)
    obtain ⟨t, hct, _⟩ := fx.grow2 p v1 hv1
    exact fx.recip2 p (v1 ++ t) hct d
      (List.mem_append_left t ((hiff d).2 ⟨hdv0, hdp⟩))
  constructor
  · intro l hl p
    rw [fx.get3 d] at hl
    cases h2d : amGet c2 d with
    | none => rw [h2d] at hl; simp at hl
    | some v2 =>
      rw [h2d] at hl
      obtain rfl : pydedup v2 = l := by simpa using hl
      constructor
      · intro hp
        have hp2 : p ∈ v2 := mem_pydedup.1 hp
        obtain ⟨hpK, w, hw, hdw⟩ := fx.new2 d v2 h2d hd p hp2
        obtain ⟨v0, hv0⟩ := mem_keys_amGet hpK
        obtain ⟨v1, hv1, _, _, hiff⟩ := fx.items1 (p, v0) (amGet_mem hv0)
        obtain ⟨t, hct, htK⟩ := fx.grow2 p v1 hv1
        obtain rfl : v1 ++ t = w := by rw [hw] at hct; simpa using hct.symm
        rcases List.mem_append.1 hdw with hdv1 | hdt
        · exact ⟨v0, hv0, ((hiff d).1 hdv1).1⟩
        · exact absurd (htK d hdt) hd
      · intro ⟨v0, hv0, hdv0⟩
        obtain ⟨w, hwc2, hpw⟩ := backward p v0 hv0 hdv0
        rw [hwc2] at h2d
        obtain rfl : w = v2 := by simpa using h2d
        exact mem_pydedup.2 hpw
  · intro ⟨p, v0, hv0, hdv0⟩
    obtain ⟨w, hwc2, _⟩ := backward p v0 hv0 hdv0
    rw [fx.get3 d, hwc2]
    simp

/-- C6, original form, refuted: with input `A→[C]`, `B→[C]` the node `C`
auto-created for the dangling reference is left with the two neighbours
`A` and `B`, not exactly one. -/
theorem claim_C6_counterexample :
    (validate_connections [("A", ["C"]), ("B", ["C"])] true none none false).bind
        (fun x => amGet x.1 "C") = some ["A", "B"] ∧
      (["A", "B"] : List String).length ≠ 1 := by
  constructor
  · rfl
  · simp

/-! ### Edge enumerator refinement -/

/-- Seen-set duplicate removal that also returns the final seen set, used
to relate the enumerator loop to plain deduplication. -/
def pydedupGoS {α : Type} [DecidableEq α] (seen : List α) : List α → List α × List α
  | [] => (seen, [])
  | d :: rest =>
    if d ∈ seen then pydedupGoS seen rest
    else
      let out := pydedupGoS (d :: seen) rest
      (out.1, d :: out.2)

theorem pydedupGoS_snd {α : Type} [DecidableEq α] (seen l : List α) :
    (pydedupGoS seen l).2 = pydedupGo seen l := by
  induction l generalizing seen with
  | nil => rfl
  | cons d rest ih =>
    by_cases hd : d ∈ seen
    · simp [pydedupGoS, pydedupGo, hd, ih]
    · simp [pydedupGoS, pydedupGo, hd, ih]

theorem pydedupGoS_append {α : Type} [DecidableEq α] (l1 l2 : List α) :
    ∀ seen, pydedupGoS seen (l1 ++ l2) =
      ((pydedupGoS (pydedupGoS seen l1).1 l2).1,
        (pydedupGoS seen l1).2 ++ (pydedupGoS (pydedupGoS seen l1).1 l2).2) := by
  induction l1 with
  | nil => intro seen; simp [pydedupGoS]
  | cons d rest ih =>
    intro seen
    by_cases hd : d ∈ seen
    · simpa [pydedupGoS, hd] using ih seen
    · simp [pydedupGoS, hd, ih (d :: seen)]

theorem sectionsInner_eq (a : String) (dests : List String) :
    ∀ printed, sectionsInner a printed dests =
      pydedupGoS printed ((dests.filter (fun b => b ≠ a)).map (canonPair a)) := by
  induction dests with
  | nil => intro printed; rfl
  | cons b rest ih =>
    intro printed
    by_cases hab : a = b
    · subst hab
      simp [sectionsInner, List.filter_cons, ih]
    · have hba : ¬ b = a := fun e => hab e.symm
      by_cases hp : canonPair a b ∈ printed
      · simp [sectionsInner, hab, hba, List.filter_cons, hp, ih, pydedupGoS]
      · simp [sectionsInner, hab, hba, List.filter_cons, hp, ih, pydedupGoS]

theorem sectionsOuter_eq (items : List (String × List String)) :
    ∀ printed, sectionsOuter printed items =
      (pydedupGoS printed ((items.map (fun kv =>
        (kv.2.filter (fun b => b ≠ kv.1)).map (canonPair kv.1))).flatten)).2 := by
  induction items with
  | nil => intro printed; rfl
  | cons kv rest ih =>
    intro printed
    obtain ⟨a, dests⟩ := kv
    simp only [sectionsOuter, List.map_cons, List.flatten_cons, pydedupGoS_append,
      sectionsInner_eq, ih]

theorem cpLE_total (x : List Char) : ∀ y, cpLE x y = true ∨ cpLE y x = true := by
  induction x with
  | nil => intro y; left; rfl
  | cons c1 r1 ih =>
    intro y
    cases y with
    | nil => right; rfl
    | cons c2 r2 =>
      rcases Nat.lt_trichotomy c1.toNat c2.toNat with h | h | h
      · left
        simp [cpLE, h]
      · have h1 : ¬ (c1.toNat < c2.toNat) := by omega
        have h2 : ¬ (c2.toNat < c1.toNat) := by omega
        rcases ih r2 with hr | hr
        · left
          simpa [cpLE, h1, h2] using hr
        · right
          simpa [cpLE, h1, h2] using hr
      · right
        simp [cpLE, h]

theorem canonPair_le (a b : String) :
    stringLE (canonPair a b).1 (canonPair a b).2 = true := by
  rw [canonPair]
  by_cases h : stringLE a b = true
  · rw [if_pos h]
    exact h
  · rw [if_neg h]
    have := (cpLE_total a.data b.data).resolve_left (by simpa [stringLE] using h)
    simpa [stringLE] using this

theorem enumerateEdges_eq_spec (conn : AMap) :
    enumerateEdges conn = enumEdgesSpec conn := by
  rw [enumerateEdges, enumEdgesSpec, sectionsOuter_eq, pydedupGoS_snd]
  rfl

/-- C7: the edge enumerator coincides with its specification (canonical
sorted pairs in map-then-list order, first occurrence kept, duplicates from
either direction suppressed); its output never repeats a pair, every pair
is emitted in canonical sorted order, and the map with one reciprocally
listed pair yields exactly one edge. -/
theorem claim_C7_edge_enumerator :
    (∀ conn : AMap, enumerateEdges conn = enumEdgesSpec conn) ∧
    (∀ conn : AMap, (enumerateEdges conn).Nodup) ∧
    (∀ (conn : AMap) (p : String × String), p ∈ enumerateEdges conn →
      stringLE p.1 p.2 = true) ∧
    enumerateEdges [("A", ["B"]), ("B", ["A"])] = [("A", "B")] := by
  refine ⟨enumerateEdges_eq_spec, ?_, ?_, by rfl⟩
  · intro conn
    rw [enumerateEdges_eq_spec]
    exact pydedup_nodup _
  · intro conn p hp
    rw [enumerateEdges_eq_spec, enumEdgesSpec] at hp
    have hp' := mem_pydedup.1 hp
    obtain ⟨l, hl, hpl⟩ := List.mem_flatten.1 hp'
    obtain ⟨kv, hkv, rfl⟩ := List.mem_map.1 hl
    obtain ⟨b, hb, rfl⟩ := List.mem_map.1 hpl
    exact canonPair_le kv.1 b

/-! ### Heap model of `validate_connections` for the framing claim

The pure embedding above identifies the working copy with the input, which
is sound for value-level claims but silent about aliasing.  To verify that
the caller's data is never mutated we re-translate the function against an
explicit heap of Python list objects: a dict value is a reference to a heap
cell, `list(v)` copies into a fresh cell, `conn[k] = v` rebinds a key to the
cell holding `v`, and `conn[end].append(start)` writes the referenced cell
in place. -/

/-- Heap of list objects: cell id to current contents. -/
abbrev LHeap := Nat → List String

/-- Write one heap cell. -/
def hupd (h : LHeap) (r : Nat) (v : List String) : LHeap :=
  fun x => if x = r then v else h x

/-- A Python dict seen as keys bound to list-object references. -/
abbrev RDict := List (String × Nat)

def rdGet : RDict → String → Option Nat
  | [], _ => none
  | (k', r) :: rest, k => if k' = k then some r else rdGet rest k

def rdSet : RDict → String → Nat → RDict
  | [], k, r => [(k, r)]
  | (k', r') :: rest, k, r =>
    if k' = k then (k, r) :: rest else (k', r') :: rdSet rest k r

def rdContains (d : RDict) (k : String) : Bool := (rdGet d k).isSome

/-- The copy `conn = {k: list(v) for k, v in connections.items()}`: one
fresh cell per key holding the contents of the caller's cell. -/
def copyDict : RDict → LHeap → Nat → RDict × LHeap × Nat
  | [], h, n => ([], h, n)
  | (k, r) :: rest, h, n =>
    let out := copyDict rest (hupd h n (h r)) (n + 1)
    ((k, n) :: out.1, out.2.1, out.2.2)

/-- Heap-level state: working dict, report, heap, next fresh cell. -/
abbrev HState := RDict × List String × LHeap × Nat

/-- Phase 1 on the heap.  `list(conn.items())` snapshots key/reference
pairs; the contents are read from the heap when the pair is visited. -/
def phase1HGo (af : Bool) : List (String × Nat) → RDict → List String → LHeap → Nat →
    Option HState
  | [], conn, rep, h, n => some (conn, rep, h, n)
  | (station, r0) :: rest, conn, rep, h, n =>
    let dests := h r0
    let nd := pydedup dests
    let st1 : RDict × List String × LHeap × Nat :=
      if nd.length ≠ dests.length then
        if af then (rdSet conn station n,
          rep ++ [dupDetectLine station dests, dupFixLine station nd],
          hupd h n nd, n + 1)
        else (conn, rep ++ [dupDetectLine station dests], h, n)
      else (conn, rep, h, n)
    match rdGet st1.1 station with
    | none => none
    | some r1 =>
      let cur := st1.2.2.1 r1
      if station ∈ cur then
        if af then
          let nl := cur.filter (fun x => x ≠ station)
          phase1HGo af rest (rdSet st1.1 station st1.2.2.2)
            (st1.2.1 ++ [selfDetectLine station, selfFixLine station nl])
            (hupd st1.2.2.1 st1.2.2.2 nl) (st1.2.2.2 + 1)
        else phase1HGo af rest st1.1 (st1.2.1 ++ [selfDetectLine station])
          st1.2.2.1 st1.2.2.2
      else phase1HGo af rest st1.1 st1.2.1 st1.2.2.1 st1.2.2.2

/-- Inner loop of phase 2 on the heap: the reciprocity backfill
`conn[end].append(start)` mutates the referenced cell in place. -/
def phase2HInner (af : Bool) (start : String) :
    List String → RDict → List String → LHeap → Nat → Option HState
  | [], conn, rep, h, n => some (conn, rep, h, n)
  | dst :: rest, conn, rep, h, n =>
    if dst = start then phase2HInner af start rest conn rep h n
    else if ¬ rdContains conn dst then
      if af then
        phase2HInner af start rest (rdSet conn dst n)
          (rep ++ [undefDetectLine start dst, undefFixLine start dst])
          (hupd h n [start]) (n + 1)
      else phase2HInner af start rest conn (rep ++ [undefDetectLine start dst]) h n
    else
      match rdGet conn dst with
      | none => none
      | some r2 =>
        let dstL := h r2
        if start ∈ dstL then phase2HInner af start rest conn rep h n
        else if af then
          phase2HInner af start rest conn
            (rep ++ [recipDetectLine start dst, recipFixLine start dst])
            (hupd h r2 (dstL ++ [start])) n
        else phase2HInner af start rest conn (rep ++ [recipDetectLine start dst]) h n

/-- Outer loop of phase 2 on the heap: the snapshot holds the references,
so the list examined for `start` is whatever its cell holds at visit time. -/
def phase2HGo (af : Bool) : List (String × Nat) → RDict → List String → LHeap → Nat →
    Option HState
  | [], conn, rep, h, n => some (conn, rep, h, n)
  | (start, r0) :: items, conn, rep, h, n =>
    let dests := h r0
    match phase2HInner af start dests conn rep h n with
    | none => none
    | some (conn', rep', h', n') => phase2HGo af items conn' rep' h' n'

/-- Phase 3 on the heap: `conn[k] = fresh deduplicated list`. -/
def phase3HGo : List String → RDict → LHeap → Nat → Option (RDict × LHeap × Nat)
  | [], conn, h, n => some (conn, h, n)
  | k :: rest, conn, h, n =>
    match rdGet conn k with
    | none => none
    | some r =>
      phase3HGo rest (rdSet conn k n) (hupd h n (pydedup (h r))) (n + 1)

/-- The heap-level embedding of `validate_connections`: the caller passes
its dict `connections` (references into `h`); `n` is the next fresh cell. -/
def validateH (connections : RDict) (h : LHeap) (n : Nat) (auto_fix : Bool)
    (save_to : Option String) (saveResult : Option String) (verbose : Bool) :
    Option HState :=
  let cp := copyDict connections h n
  match phase1HGo auto_fix cp.1 cp.1 [] cp.2.1 cp.2.2 with
  | none => none
  | some (c1, r1, h2, n2) =>
    match phase2HGo auto_fix c1 c1 r1 h2 n2 with
    | none => none
    | some (c2, r2, h3, n3) =>
      match phase3HGo (c2.map Prod.fst) c2 h3 n3 with
      | none => none
      | some (c3, h4, n4) =>
        some (c3, assembleReport r2 ++ saveLines auto_fix save_to saveResult, h4, n4)

/-! ### Frame lemmas for the heap model -/

theorem rdGet_rdSet_self (d : RDict) (k : String) (r : Nat) :
    rdGet (rdSet d k r) k = some r := by
  induction d with
  | nil => simp [rdSet, rdGet]
  | cons kv rest ih =>
    obtain ⟨a, b⟩ := kv
    by_cases h : a = k
    · simp [rdSet, h, rdGet]
    · simpa [rdSet, h, rdGet] using ih

theorem rdGet_rdSet_ne (d : RDict) (k k' : String) (r : Nat) (h : k' ≠ k) :
    rdGet (rdSet d k r) k' = rdGet d k' := by
  have hkk : ¬ (k = k') := fun e => h e.symm
  induction d with
  | nil => simp [rdSet, rdGet, hkk]
  | cons kv rest ih =>
    obtain ⟨a, b⟩ := kv
    by_cases hk : a = k
    · subst hk
      simp [rdSet, rdGet, hkk]
    · by_cases hk' : a = k'
      · simp [rdSet, rdGet, hk, hk', h]
      · simpa [rdSet, rdGet, hk, hk'] using ih

theorem rdGet_isSome_of_mem {d : RDict} {p : String × Nat} (h : p ∈ d) :
    (rdGet d p.1).isSome := by
  induction d with
  | nil => simp at h
  | cons kv rest ih =>
    obtain ⟨a, b⟩ := kv
    rcases List.mem_cons.1 h with rfl | h
    · simp [rdGet]
    · by_cases hk : a = p.1
      · simp [rdGet, hk]
      · simpa [rdGet, hk] using ih h

theorem rdGet_mem {d : RDict} {k : String} {r : Nat} (h : rdGet d k = some r) :
    (k, r) ∈ d := by
  induction d with
  | nil => simp [rdGet] at h
  | cons kv rest ih =>
    obtain ⟨a, b⟩ := kv
    by_cases hk : a = k
    · rw [rdGet, if_pos hk] at h
      subst hk
      obtain rfl : b = r := by simpa using h
      exact List.mem_cons_self _ _
    · rw [rdGet, if_neg hk] at h
      exact List.mem_cons_of_mem _ (ih h)

theorem rdSet_isSome_mono {d : RDict} {k k' : String} (r : Nat)
    (h : (rdGet d k).isSome) : (rdGet (rdSet d k' r) k).isSome := by
  by_cases hk : k = k'
  · subst hk
    simp [rdGet_rdSet_self]
  · rwa [rdGet_rdSet_ne d k' k r hk]

theorem mem_rdSet {d : RDict} {k : String} {r : Nat} {p : String × Nat}
    (h : p ∈ rdSet d k r) : p ∈ d ∨ p = (k, r) := by
  induction d with
  | nil => simpa [rdSet] using h
  | cons kv rest ih =>
    obtain ⟨a, b⟩ := kv
    by_cases hk : a = k
    · rw [rdSet, if_pos hk] at h
      rcases List.mem_cons.1 h with rfl | h
      · right; rfl
      · left; exact List.mem_cons_of_mem _ h
    · rw [rdSet, if_neg hk] at h
      rcases List.mem_cons.1 h with rfl | h
      · left; exact List.mem_cons_self _ _
      · rcases ih h with h | h
        · left; exact List.mem_cons_of_mem _ h
        · right; exact h

/-- The framing invariant: all working-dict references are at or above the
watermark `n0`, the counter is too, and the heap below `n0` still holds the
caller's original contents `h0`. -/
def HFrame (n0 : Nat) (conn : RDict) (h h0 : LHeap) (n : Nat) : Prop :=
  (∀ p ∈ conn, n0 ≤ p.2) ∧ n0 ≤ n ∧ (∀ x, x < n0 → h x = h0 x)

theorem HFrame_set_fresh {n0 : Nat} {conn : RDict} {h h0 : LHeap} {n : Nat}
    (hf : HFrame n0 conn h h0 n) (k : String) (v : List String) :
    HFrame n0 (rdSet conn k n) (hupd h n v) h0 (n + 1) := by
  obtain ⟨hrefs, hn, hheap⟩ := hf
  refine ⟨?_, by omega, ?_⟩
  · intro p hp
    rcases mem_rdSet hp with hp | rfl
    · exact hrefs p hp
    · exact hn
  · intro x hx
    have : x ≠ n := by omega
    rw [hupd, if_neg this]
    exact hheap x hx

theorem HFrame_write_old {n0 : Nat} {conn : RDict} {h h0 : LHeap} {n r : Nat}
    (hf : HFrame n0 conn h h0 n) (hr : n0 ≤ r) (v : List String) :
    HFrame n0 conn (hupd h r v) h0 n := by
  obtain ⟨hrefs, hn, hheap⟩ := hf
  refine ⟨hrefs, hn, ?_⟩
  intro x hx
  have : x ≠ r := by omega
  rw [hupd, if_neg this]
  exact hheap x hx

theorem phase1HGo_spec (af : Bool) (n0 : Nat) (snapshot : List (String × Nat)) :
    ∀ (conn : RDict) (rep : List String) (h : LHeap) (n : Nat) (h0 : LHeap),
    (∀ p ∈ snapshot, (rdGet conn p.1).isSome) →
    HFrame n0 conn h h0 n →
    ∃ conn' rep' h' n',
      phase1HGo af snapshot conn rep h n = some (conn', rep', h', n') ∧
      HFrame n0 conn' h' h0 n' ∧
      (∀ k, (rdGet conn k).isSome → (rdGet conn' k).isSome) := by
  induction snapshot with
  | nil =>
    intro conn rep h n h0 _ hf
    exact ⟨conn, rep, h, n, rfl, hf, fun _ hk => hk⟩
  | cons hd rest ih =>
    intro conn rep h n h0 hsome hf
    obtain ⟨station, r0⟩ := hd
    have hsomerest : ∀ (next : RDict),
        (∀ k, (rdGet conn k).isSome → (rdGet next k).isSome) →
        ∀ p ∈ rest, (rdGet next p.1).isSome :=
      fun next hmono p hp => hmono p.1 (hsome p (List.mem_cons_of_mem _ hp))
    have hsomehd : (rdGet conn station).isSome :=
      hsome (station, r0) (List.mem_cons_self _ _)
    obtain ⟨rs, hrs⟩ := Option.isSome_iff_exists.1 hsomehd
    by_cases hlen : (pydedup (h r0)).length ≠ (h r0).length
    · cases af with
      | false =>
        by_cases hs : station ∈ h rs
        · obtain ⟨c', r', h', n', hrun, hf', hmono⟩ :=
            ih conn (rep ++ [dupDetectLine station (h r0)] ++ [selfDetectLine station])
              h n h0 (hsomerest conn (fun _ hk => hk)) hf
          refine ⟨c', r', h', n', ?_, hf', hmono⟩
          simpa [phase1HGo, hlen, hrs, hs] using hrun
        · obtain ⟨c', r', h', n', hrun, hf', hmono⟩ :=
            ih conn (rep ++ [dupDetectLine station (h r0)]) h n h0
              (hsomerest conn (fun _ hk => hk)) hf
          refine ⟨c', r', h', n', ?_, hf', hmono⟩
          simpa [phase1HGo, hlen, hrs, hs] using hrun
      | true =>
        have hmono1 : ∀ k, (rdGet conn k).isSome →
            (rdGet (rdSet conn station n) k).isSome :=
          fun k hk => rdSet_isSome_mono n hk
        have hf1 : HFrame n0 (rdSet conn station n) (hupd h n (pydedup (h r0))) h0 (n + 1) :=
          HFrame_set_fresh hf station (pydedup (h r0))
        have hcur : hupd h n (pydedup (h r0)) n = pydedup (h r0) := by simp [hupd]
        by_cases hs : station ∈ pydedup (h r0)
        · have hmono2 : ∀ k, (rdGet (rdSet conn station n) k).isSome →
              (rdGet (rdSet (rdSet conn station n) station (n + 1)) k).isSome :=
            fun k hk => rdSet_isSome_mono (n + 1) hk
          have hf2 : HFrame n0 (rdSet (rdSet conn station n) station (n + 1))
              (hupd (hupd h n (pydedup (h r0))) (n + 1)
                ((pydedup (h r0)).filter (fun x => x ≠ station))) h0 (n + 2) :=
            HFrame_set_fresh hf1 station _
          obtain ⟨c', r', h', n', hrun, hf', hmono⟩ :=
            ih (rdSet (rdSet conn station n) station (n + 1))
              (rep ++ [dupDetectLine station (h r0), dupFixLine station (pydedup (h r0))] ++
                [selfDetectLine station,
                  selfFixLine station ((pydedup (h r0)).filter (fun x => x ≠ station))])
              (hupd (hupd h n (pydedup (h r0))) (n + 1)
                ((pydedup (h r0)).filter (fun x => x ≠ station)))
              (n + 2) h0
              (hsomerest _ (fun k hk => hmono2 k (hmono1 k hk))) hf2
          refine ⟨c', r', h', n', ?_, hf', fun k hk => hmono k (hmono2 k (hmono1 k hk))⟩
          simpa [phase1HGo, hlen, rdGet_rdSet_self, hcur, hs] using hrun
        · obtain ⟨c', r', h', n', hrun, hf', hmono⟩ :=
            ih (rdSet conn station n)
              (rep ++ [dupDetectLine station (h r0), dupFixLine station (pydedup (h r0))])
              (hupd h n (pydedup (h r0))) (n + 1) h0
              (hsomerest _ hmono1) hf1
          refine ⟨c', r', h', n', ?_, hf', fun k hk => hmono k (hmono1 k hk)⟩
          simpa [phase1HGo, hlen, rdGet_rdSet_self, hcur, hs] using hrun
    · cases af with
      | false =>
        by_cases hs : station ∈ h rs
        · obtain ⟨c', r', h', n', hrun, hf', hmono⟩ :=
            ih conn (rep ++ [selfDetectLine station]) h n h0
              (hsomerest conn (fun _ hk => hk)) hf
          refine ⟨c', r', h', n', ?_, hf', hmono⟩
          simpa [phase1HGo, hlen, hrs, hs] using hrun
        · obtain ⟨c', r', h', n', hrun, hf', hmono⟩ :=
            ih conn rep h n h0 (hsomerest conn (fun _ hk => hk)) hf
          refine ⟨c', r', h', n', ?_, hf', hmono⟩
          simpa [phase1HGo, hlen, hrs, hs] using hrun
      | true =>
        by_cases hs : station ∈ h rs
        · have hmono1 : ∀ k, (rdGet conn k).isSome →
              (rdGet (rdSet conn station n) k).isSome :=
            fun k hk => rdSet_isSome_mono n hk
          have hf1 : HFrame n0 (rdSet conn station n)
              (hupd h n ((h rs).filter (fun x => x ≠ station))) h0 (n + 1) :=
            HFrame_set_fresh hf station _
          obtain ⟨c', r', h', n', hrun, hf', hmono⟩ :=
            ih (rdSet conn station n)
              (rep ++ [selfDetectLine station,
                selfFixLine station ((h rs).filter (fun x => x ≠ station))])
              (hupd h n ((h rs).filter (fun x => x ≠ station))) (n + 1) h0
              (hsomerest _ hmono1) hf1
          refine ⟨c', r', h', n', ?_, hf', fun k hk => hmono k (hmono1 k hk)⟩
          simpa [phase1HGo, hlen, hrs, hs] using hrun
        · obtain ⟨c', r', h', n', hrun, hf', hmono⟩ :=
            ih conn rep h n h0 (hsomerest conn (fun _ hk => hk)) hf
          refine ⟨c', r', h', n', ?_, hf', hmono⟩
          simpa [phase1HGo, hlen, hrs, hs] using hrun

theorem phase2HInner_spec (af : Bool) (n0 : Nat) (start : String) (dests : List String) :
    ∀ (conn : RDict) (rep : List String) (h : LHeap) (n : Nat) (h0 : LHeap),
    HFrame n0 conn h h0 n →
    ∃ conn' rep' h' n',
      phase2HInner af start dests conn rep h n = some (conn', rep', h', n') ∧
      HFrame n0 conn' h' h0 n' ∧
      (∀ k, (rdGet conn k).isSome → (rdGet conn' k).isSome) := by
  induction dests with
  | nil =>
    intro conn rep h n h0 hf
    exact ⟨conn, rep, h, n, rfl, hf, fun _ hk => hk⟩
  | cons dst rest ih =>
    intro conn rep h n h0 hf
    by_cases hds : dst = start
    · obtain ⟨c', r', h', n', hrun, hf', hmono⟩ := ih conn rep h n h0 hf
      refine ⟨c', r', h', n', ?_, hf', hmono⟩
      simpa [phase2HInner, hds] using hrun
    · by_cases hck : rdContains conn dst = true
      · obtain ⟨r2, hr2⟩ := Option.isSome_iff_exists.1 hck
        by_cases hmem : start ∈ h r2
        · obtain ⟨c', r', h', n', hrun, hf', hmono⟩ := ih conn rep h n h0 hf
          refine ⟨c', r', h', n', ?_, hf', hmono⟩
          simpa [phase2HInner, hds, hck, hr2, hmem] using hrun
        · cases af with
          | true =>
            have hr2ge : n0 ≤ r2 := hf.1 (dst, r2) (rdGet_mem hr2)
            have hf1 : HFrame n0 conn (hupd h r2 (h r2 ++ [start])) h0 n :=
              HFrame_write_old hf hr2ge _
            obtain ⟨c', r', h', n', hrun, hf', hmono⟩ :=
              ih conn (rep ++ [recipDetectLine start dst, recipFixLine start dst])
                (hupd h r2 (h r2 ++ [start])) n h0 hf1
            refine ⟨c', r', h', n', ?_, hf', hmono⟩
            simpa [phase2HInner, hds, hck, hr2, hmem] using hrun
          | false =>
            obtain ⟨c', r', h', n', hrun, hf', hmono⟩ :=
              ih conn (rep ++ [recipDetectLine start dst]) h n h0 hf
            refine ⟨c', r', h', n', ?_, hf', hmono⟩
            simpa [phase2HInner, hds, hck, hr2, hmem] using hrun
      · cases af with
        | true =>
          have hf1 : HFrame n0 (rdSet conn dst n) (hupd h n [start]) h0 (n + 1) :=
            HFrame_set_fresh hf dst [start]
          obtain ⟨c', r', h', n', hrun, hf', hmono⟩ :=
            ih (rdSet conn dst n)
              (rep ++ [undefDetectLine start dst, undefFixLine start dst])
              (hupd h n [start]) (n + 1) h0 hf1
          refine ⟨c', r', h', n', ?_, hf',
            fun k hk => hmono k (rdSet_isSome_mono n hk)⟩
          simpa [phase2HInner, hds, hck] using hrun
        | false =>
          obtain ⟨c', r', h', n', hrun, hf', hmono⟩ :=
            ih conn (rep ++ [undefDetectLine start dst]) h n h0 hf
          refine ⟨c', r', h', n', ?_, hf', hmono⟩
          simpa [phase2HInner, hds, hck] using hrun

theorem phase2HGo_spec (af : Bool) (n0 : Nat) (items : List (String × Nat)) :
    ∀ (conn : RDict) (rep : List String) (h : LHeap) (n : Nat) (h0 : LHeap),
    HFrame n0 conn h h0 n →
    ∃ conn' rep' h' n',
      phase2HGo af items conn rep h n = some (conn', rep', h', n') ∧
      HFrame n0 conn' h' h0 n' ∧
      (∀ k, (rdGet conn k).isSome → (rdGet conn' k).isSome) := by
  induction items with
  | nil =>
    intro conn rep h n h0 hf
    exact ⟨conn, rep, h, n, rfl, hf, fun _ hk => hk⟩
  | cons hd items ih =>
    intro conn rep h n h0 hf
    obtain ⟨start, r0⟩ := hd
    obtain ⟨c1, r1, h1, n1, hrun1, hf1, hmono1⟩ :=
      phase2HInner_spec af n0 start (h r0) conn rep h n h0 hf
    obtain ⟨c', r', h', n', hrun, hf', hmono⟩ := ih c1 r1 h1 n1 h0 hf1
    refine ⟨c', r', h', n', ?_, hf', fun k hk => hmono k (hmono1 k hk)⟩
    simpa [phase2HGo, hrun1] using hrun

theorem phase3HGo_spec (n0 : Nat) (ks : List String) :
    ∀ (conn : RDict) (h : LHeap) (n : Nat) (h0 : LHeap),
    (∀ k ∈ ks, (rdGet conn k).isSome) →
    HFrame n0 conn h h0 n →
    ∃ conn' h' n',
      phase3HGo ks conn h n = some (conn', h', n') ∧
      HFrame n0 conn' h' h0 n' := by
  induction ks with
  | nil =>
    intro conn h n h0 _ hf
    exact ⟨conn, h, n, rfl, hf⟩
  | cons k ks ih =>
    intro conn h n h0 hsome hf
    obtain ⟨r, hr⟩ := Option.isSome_iff_exists.1 (hsome k (List.mem_cons_self _ _))
    have hf1 : HFrame n0 (rdSet conn k n) (hupd h n (pydedup (h r))) h0 (n + 1) :=
      HFrame_set_fresh hf k _
    obtain ⟨c', h', n', hrun, hf'⟩ :=
      ih (rdSet conn k n) (hupd h n (pydedup (h r))) (n + 1) h0
        (fun k' hk' => rdSet_isSome_mono n (hsome k' (List.mem_cons_of_mem _ hk')))
        hf1
    refine ⟨c', h', n', ?_, hf'⟩
    simpa [phase3HGo, hr] using hrun

theorem copyDict_spec (n0 : Nat) (d : RDict) :
    ∀ (h : LHeap) (n : Nat), n0 ≤ n →
    (∀ p ∈ (copyDict d h n).1, n0 ≤ p.2) ∧
    n0 ≤ (copyDict d h n).2.2 ∧
    (∀ x, x < n0 → (copyDict d h n).2.1 x = h x) := by
  induction d with
  | nil =>
    intro h n hn
    exact ⟨by simp [copyDict], hn, fun _ _ => rfl⟩
  | cons kv rest ih =>
    intro h n hn
    obtain ⟨k, r⟩ := kv
    obtain ⟨hrefs, hcount, hheap⟩ := ih (hupd h n (h r)) (n + 1) (by omega)
    refine ⟨?_, hcount, ?_⟩
    · intro p hp
      rcases List.mem_cons.1 hp with rfl | hp
      · exact hn
      · exact hrefs p hp
    · intro x hx
      show (copyDict rest (hupd h n (h r)) (n + 1)).2.1 x = h x
      rw [hheap x hx, hupd, if_neg (by omega)]

/-- C8: `validate` never mutates the caller's data.  On the heap model,
every cell the caller can reach (any cell below the fresh-cell watermark,
in particular every cell its dict references) holds its original contents
after the call, for every flag combination; hence the caller's mapping
still dereferences to exactly the same key/list associations. -/
theorem claim_C8_input_not_mutated (d : RDict) (h : LHeap) (n : Nat)
    (af : Bool) (sv sr : Option String) (vb : Bool)
    (hrefs : ∀ p ∈ d, p.2 < n) :
    ∃ conn' rep' h' n',
      validateH d h n af sv sr vb = some (conn', rep', h', n') ∧
      (∀ x, x < n → h' x = h x) ∧
      d.map (fun p => (p.1, h' p.2)) = d.map (fun p => (p.1, h p.2)) := by
  obtain ⟨hcrefs, hccount, hcheap⟩ := copyDict_spec n d h n (Nat.le_refl n)
  have hf0 : HFrame n (copyDict d h n).1 (copyDict d h n).2.1 h (copyDict d h n).2.2 :=
    ⟨hcrefs, hccount, hcheap⟩
  obtain ⟨c1, r1, h2, n2, hrun1, hf1, _⟩ :=
    phase1HGo_spec af n (copyDict d h n).1 (copyDict d h n).1 []
      (copyDict d h n).2.1 (copyDict d h n).2.2 h
      (fun p hp => rdGet_isSome_of_mem hp) hf0
  obtain ⟨c2, r2, h3, n3, hrun2, hf2, _⟩ :=
    phase2HGo_spec af n c1 c1 r1 h2 n2 h hf1
  obtain ⟨c3, h4, n4, hrun3, hf3⟩ :=
    phase3HGo_spec n (c2.map Prod.fst) c2 h3 n3 h
      (by
        intro k hk
        obtain ⟨p, hp, rfl⟩ := List.mem_map.1 hk
        exact rdGet_isSome_of_mem hp)
      hf2
  refine ⟨c3, assembleReport r2 ++ saveLines af sv sr, h4, n4, ?_, hf3.2.2, ?_⟩
  · simp only [validateH, hrun1, hrun2, hrun3]
  · refine List.map_congr_left ?_
    intro p hp
    rw [hf3.2.2 p.2 (hrefs p hp)]

/-! ### Witnesses: the hypotheses of the claim theorems are satisfiable -/

/-- Witness for C1 at a concrete input with one dangling reference. -/
theorem claim_C1_witness :
    (amKeys [("A", ["B"])]).Nodup ∧
    validate_connections [("A", ["B"])] true none none true =
      some ([("A", ["B"]), ("B", ["A"])],
        [summaryLine 2, undefDetectLine "A" "B", undefFixLine "A" "B"]) ∧
    validate_connections [("A", ["B"]), ("B", ["A"])] true none none true =
      some ([("A", ["B"]), ("B", ["A"])], [noIssuesLine]) :=
  ⟨by decide, by rfl,
    claim_C1_autofix_idempotent [("A", ["B"])] none none true true
      [("A", ["B"]), ("B", ["A"])]
      [summaryLine 2, undefDetectLine "A" "B", undefFixLine "A" "B"]
      (by decide) (by rfl)⟩

/-- Witness for C2 at a concrete input. -/
theorem claim_C2_witness :
    (amKeys [("A", ["B"])]).Nodup ∧
    validate_connections [("A", ["B"])] true none none true =
      some ([("A", ["B"]), ("B", ["A"])],
        [summaryLine 2, undefDetectLine "A" "B", undefFixLine "A" "B"]) ∧
    (∀ a v, amGet [("A", ["B"]), ("B", ["A"])] a = some v →
      ∀ b ∈ v, ∃ w, amGet [("A", ["B"]), ("B", ["A"])] b = some w ∧ a ∈ w) :=
  ⟨by decide, by rfl,
    claim_C2_reciprocity [("A", ["B"])] none none true
      [("A", ["B"]), ("B", ["A"])]
      [summaryLine 2, undefDetectLine "A" "B", undefFixLine "A" "B"]
      (by decide) (by rfl)⟩

/-- Witness for C3 at a concrete input with auto-fix off: the returned list
is deduplicated even though the defect is only reported. -/
theorem claim_C3_witness :
    (amKeys [("A", ["B", "B"])]).Nodup ∧
    validate_connections [("A", ["B", "B"])] false none none true =
      some ([("A", ["B"])],
        [summaryLine 3, dupDetectLine "A" ["B", "B"], undefDetectLine "A" "B",
          undefDetectLine "A" "B"]) ∧
    (∀ k v, amGet [("A", ["B"])] k = some v → v.Nodup) :=
  ⟨by decide, by rfl,
    claim_C3_no_duplicates [("A", ["B", "B"])] false none none true
      [("A", ["B"])]
      [summaryLine 3, dupDetectLine "A" ["B", "B"], undefDetectLine "A" "B",
        undefDetectLine "A" "B"]
      (by decide) (by rfl)⟩

/-- Witness for C4 at a concrete degenerate (self-looping) input. -/
theorem claim_C4_witness :
    (amKeys [("A", ["A"])]).Nodup ∧
    (∃ m r, validate_connections [("A", ["A"])] false none none true =
      some (m, r) ∧ r ≠ []) :=
  ⟨by decide,
    claim_C4_total [("A", ["A"])] false none none true (by decide)⟩

/-- Witness for C5 at a concrete input with one defect. -/
theorem claim_C5_witness :
    phase1 false [("A", ["A"])] = some ([("A", ["A"])], [selfDetectLine "A"]) ∧
    phase2 false [("A", ["A"])] = some ([("A", ["A"])], []) ∧
    ([selfDetectLine "A"] ++ ([] : List String) ≠ []) ∧
    validate_connections [("A", ["A"])] false none none true =
      some ([("A", ["A"])], [summaryLine 1, selfDetectLine "A"]) ∧
    [summaryLine 1, selfDetectLine "A"] =
      summaryLine ([selfDetectLine "A"] ++ ([] : List String)).length ::
        (([selfDetectLine "A"] ++ ([] : List String)) ++ saveLines false none none) :=
  ⟨by rfl, by rfl, by simp, by rfl,
    claim_C5_report_shape [("A", ["A"])] false none none true
      [("A", ["A"])] [selfDetectLine "A"] [("A", ["A"])] []
      [("A", ["A"])] [summaryLine 1, selfDetectLine "A"]
      (by rfl) (by rfl) (by simp) (by rfl)⟩

/-- Witness for C6 (amended) at an input whose dangling name has two
referrers. -/
theorem claim_C6_witness :
    (amKeys [("A", ["C"]), ("B", ["C"])]).Nodup ∧
    ("C" ∉ amKeys [("A", ["C"]), ("B", ["C"])]) ∧
    validate_connections [("A", ["C"]), ("B", ["C"])] true none none false =
      some ([("A", ["C"]), ("B", ["C"]), ("C", ["A", "B"])],
        [summaryLine 4, undefDetectLine "A" "C", undefFixLine "A" "C",
          recipDetectLine "B" "C", recipFixLine "B" "C"]) ∧
    ((∀ l, amGet [("A", ["C"]), ("B", ["C"]), ("C", ["A", "B"])] "C" = some l →
      ∀ p, (p ∈ l ↔ ∃ v0, amGet [("A", ["C"]), ("B", ["C"])] p = some v0 ∧ "C" ∈ v0)) ∧
    ((∃ p v0, amGet [("A", ["C"]), ("B", ["C"])] p = some v0 ∧ "C" ∈ v0) →
      (amGet [("A", ["C"]), ("B", ["C"]), ("C", ["A", "B"])] "C").isSome)) :=
  ⟨by decide, by decide, by rfl,
    claim_C6_created_node_neighbours [("A", ["C"]), ("B", ["C"])] none none false "C"
      [("A", ["C"]), ("B", ["C"]), ("C", ["A", "B"])]
      [summaryLine 4, undefDetectLine "A" "C", undefFixLine "A" "C",
        recipDetectLine "B" "C", recipFixLine "B" "C"]
      (by decide) (by decide) (by rfl)⟩

/-- Witness for C8 at a concrete caller dict and heap. -/
theorem claim_C8_witness :
    (∀ p ∈ ([("A", 0)] : RDict), p.2 < 1) ∧
    (∃ conn' rep' h' n',
      validateH [("A", 0)] (fun _ => ["A"]) 1 true none none true =
        some (conn', rep', h', n') ∧
      (∀ x, x < 1 → h' x = (fun _ => ["A"] : LHeap) x) ∧
      ([("A", 0)] : RDict).map (fun p => (p.1, h' p.2)) =
        ([("A", 0)] : RDict).map (fun p => (p.1, (fun _ => ["A"] : LHeap) p.2))) :=
  ⟨by decide,
    claim_C8_input_not_mutated [("A", 0)] (fun _ => ["A"]) 1 true none none true
      (by decide)⟩

/-- Witness for C9 at a concrete path and error. -/
theorem claim_C9_witness :
    ("out.json" ≠ "") ∧
    validate_connections [] true (some "out.json") none true =
      some ([], [noIssuesLine, savedLine "out.json"]) ∧
    (validate_connections [] true (some "out.json") (some "boom") true =
      some ([], ([noIssuesLine, savedLine "out.json"] : List String).dropLast ++
        [saveErrLine "boom"]) ∧
    ([noIssuesLine, savedLine "out.json"] : List String).getLast? =
      some (savedLine "out.json")) :=
  ⟨by decide, by rfl,
    claim_C9_save_error_reported [] "out.json" "boom" true []
      [noIssuesLine, savedLine "out.json"] (by decide) (by rfl)⟩

/-- Witness for C10 at a concrete input with a duplicate, a self-loop and
an asymmetric link. -/
theorem claim_C10_witness :
    (amKeys [("A", ["B", "B", "A"]), ("B", [])]).Nodup ∧
    (∃ m r, validate_connections [("A", ["B", "B", "A"]), ("B", [])] false none none true =
      some (m, r) ∧
      amKeys m = amKeys [("A", ["B", "B", "A"]), ("B", [])] ∧
      (∀ k, amGet m k = (amGet [("A", ["B", "B", "A"]), ("B", [])] k).map pydedup)) :=
  ⟨by decide,
    claim_C10_nofix_dedup_only [("A", ["B", "B", "A"]), ("B", [])] none none true
      (by decide)⟩
